import Mathlib

/-!
Verification of the Towers of Hanoi core (`State` and its operations) from
`src/main.rs`.

Modelling conventions:
* `u8` values are `Nat`s; overflow is modelled explicitly with `% 256` at the
  two places the source can overflow (`State::new`'s `disks + 1` and
  `do_auto`'s `largest + 1`), i.e. with Rust release ("wrapping") semantics.
  `u8::max_value()` is the literal `255`.
* In-place mutation of `self` is modelled by returning the new `State`.
* A Rust panic (`Option::unwrap` on `None`, a failing `assert_eq!`, or
  `unreachable!()`) is modelled as the value `none` of an `Option` result.
* `Vec<Disk>`: front (= index 0 = bottom of the peg) is the head of the list,
  `Vec::push`/`Vec::pop`/`Vec::last` act at the end of the list,
  `Vec::first` is the head.
-/

/-- A single disk, identified by its size (`struct Disk(u8)`). -/
structure Disk where
  sz : Nat
deriving DecidableEq

/-- An identifier for a peg (`enum Peg`). -/
inductive Peg where
  | Left
  | Center
  | Right
deriving DecidableEq

/-- A move operation from one peg to another (`struct Move`).  The Rust field
names `from`/`to` are Lean keywords, so they are called `fromPeg`/`toPeg`. -/
structure Move where
  fromPeg : Peg
  toPeg : Peg
deriving DecidableEq

/-- The next step the game should take (`enum NextStep`). -/
inductive NextStep where
  | Win
  | Continue
deriving DecidableEq

/-- An error that might arise while processing a user instruction
(`enum HanoiError`).  Per the source doc comment, `UnstableStack (peg, disk)`
means: `disk` cannot go on `peg` because it is bigger than `peg`'s top disk. -/
inductive HanoiError where
  | UnstableStack (peg : Peg) (disk : Disk)
  | EmptyFrom (peg : Peg)
  | AlreadyDone
deriving DecidableEq

/-- The state of the game: a vector of `Disk`s on each peg, bottom first
(`struct State`). -/
structure State where
  left : List Disk
  center : List Disk
  right : List Disk
deriving DecidableEq

instance {ε α : Type} [DecidableEq ε] [DecidableEq α] : DecidableEq (Except ε α) := fun a b =>
  match a, b with
  | .ok x, .ok y => if h : x = y then .isTrue (by rw [h]) else .isFalse (by simp [h])
  | .ok _, .error _ => .isFalse (by simp)
  | .error _, .ok _ => .isFalse (by simp)
  | .error x, .error y => if h : x = y then .isTrue (by rw [h]) else .isFalse (by simp [h])

/-- `State::new(disks)`: disks `(1..disks+1).rev()` on the left peg.  The Rust
range `1..disks+1` computes `disks + 1` in `u8` arithmetic, hence the explicit
`% 256`; the range `1..m` has the `m - 1` elements `1, ..., m-1`. -/
def State.new (disks : Nat) : State :=
  { left := ((List.range' 1 ((disks + 1) % 256 - 1)).map Disk.mk).reverse
    center := []
    right := [] }

/-- Immutably borrow the tower for `peg` (`State::get_tower`). -/
def State.get_tower (s : State) (peg : Peg) : List Disk :=
  match peg with
  | Peg.Left => s.left
  | Peg.Center => s.center
  | Peg.Right => s.right

/-- Functional counterpart of `State::get_tower_mut`: replace the tower for
`peg`. -/
def State.set_tower (s : State) (peg : Peg) (l : List Disk) : State :=
  match peg with
  | Peg.Left => { s with left := l }
  | Peg.Center => { s with center := l }
  | Peg.Right => { s with right := l }

/-- Pop the top disk off `peg`, if possible (`State::pop_disk`, via
`Vec::pop`). -/
def State.pop_disk (s : State) (peg : Peg) : Option (Disk × State) :=
  match (s.get_tower peg).getLast? with
  | none => none
  | some d => some (d, s.set_tower peg (s.get_tower peg).dropLast)

/-- Get a copy of the top disk on `peg`, if possible (`State::peek_disk`, via
`Vec::last`). -/
def State.peek_disk (s : State) (peg : Peg) : Option Disk :=
  (s.get_tower peg).getLast?

/-- Push `disk` onto the top of `peg` (`State::push_disk`).  Fails with
`UnstableStack` if `disk` would sit on a smaller disk; an empty peg's top size
counts as `u8::max_value() = 255`. -/
def State.push_disk (s : State) (peg : Peg) (disk : Disk) : Except HanoiError State :=
  let disk_size := disk.sz
  let top_size := match s.peek_disk peg with
    | some d => d.sz
    | none => 255
  if disk_size ≤ top_size then
    Except.ok (s.set_tower peg (s.get_tower peg ++ [disk]))
  else
    Except.error (HanoiError.UnstableStack peg disk)

/-- Returns true if the game has been won (`State::done`). -/
def State.done (s : State) : Bool :=
  s.left.isEmpty && (s.right.isEmpty || s.center.isEmpty)

/-- `State::can_move`: `None` when the move is legal, otherwise the error it
would produce.  Note that the `UnstableStack` error carries the *destination's
top disk* `Disk(to_sz)`, exactly as in the source. -/
def State.can_move (s : State) (mov : Move) : Option HanoiError :=
  match s.peek_disk mov.fromPeg with
  | some f =>
      let t := (s.peek_disk mov.toPeg).getD (Disk.mk 255)
      if f.sz ≤ t.sz then none
      else some (HanoiError.UnstableStack mov.toPeg t)
  | none => some (HanoiError.EmptyFrom mov.fromPeg)

/-- Executes the given move (`State::do_move`).  `none` models a panic: the
`unwrap` of `pop_disk` or the `assert_eq!` on the result of `push_disk`. -/
def State.do_move (s : State) (mov : Move) : Option (Except HanoiError NextStep × State) :=
  match s.can_move mov with
  | some err => some (Except.error err, s)
  | none =>
      match s.pop_disk mov.fromPeg with
      | none => none
      | some (disk, s1) =>
          match s1.push_disk mov.toPeg disk with
          | Except.error _ => none
          | Except.ok s2 =>
              some (Except.ok (if s2.done then NextStep.Win else NextStep.Continue), s2)

/-- The nested `find_disk` helper of `do_auto`: the peg of `disk`, defaulting
to `Right` (via `Iterator::position(..).is_some()` on left, then center). -/
def find_disk (st : State) (disk : Disk) : Peg :=
  if disk ∈ st.left then Peg.Left
  else if disk ∈ st.center then Peg.Center
  else Peg.Right

/-- The nested `odd_one_out` helper of `do_auto`: the third peg.  The source's
`unreachable!()` on the diagonal is modelled as `none`. -/
def odd_one_out (p1 p2 : Peg) : Option Peg :=
  match p1, p2 with
  | Peg.Left, Peg.Center => some Peg.Right
  | Peg.Center, Peg.Left => some Peg.Right
  | Peg.Left, Peg.Right => some Peg.Center
  | Peg.Right, Peg.Left => some Peg.Center
  | Peg.Center, Peg.Right => some Peg.Left
  | Peg.Right, Peg.Center => some Peg.Left
  | _, _ => none

/-- `match tower.first() { Some(&Disk(sz)) => sz, _ => 0 }`: the size of the
bottom disk of a tower, `0` when empty. -/
def firstSize (l : List Disk) : Nat :=
  match l.head? with
  | some d => d.sz
  | none => 0

/-- The `largest` computation of `do_auto`: maximum of the three bottom
sizes. -/
def State.largest_disk (s : State) : Nat :=
  max (firstSize s.left) (max (firstSize s.center) (firstSize s.right))

/-- The `dest_peg` computation of `do_auto`.  The Rust `a ^ b` (xor of two
`bool`s) is written as the negated `↔`, so `if a ^ b { Center } else { Right }`
becomes `if a ↔ b then Right else Center`. -/
def State.dest_peg (s : State) : Peg :=
  let largest_center := firstSize s.center
  let largest_right := firstSize s.right
  let largest_not_on_start := max largest_center largest_right
  if largest_not_on_start = 0 then Peg.Right
  else if (largest_center = largest_not_on_start) ↔
      ((s.largest_disk - largest_not_on_start) % 2 = 1) then Peg.Right
  else Peg.Center

/-- The `for sz in (1..largest+1).rev()` loop of `do_auto`, as a recursion on
`sz` counting down; `sz = 0` is loop exit, returning `Err(AlreadyDone)`. -/
def do_auto_loop (s : State) (move_to : Peg) : Nat → Option (Except HanoiError NextStep × State)
  | 0 => some (Except.error HanoiError.AlreadyDone, s)
  | sz + 1 =>
      let peg := find_disk s (Disk.mk (sz + 1))
      if peg ≠ move_to then
        if (s.get_tower peg).getLast? = some (Disk.mk (sz + 1)) then
          match s.do_move { fromPeg := peg, toPeg := move_to } with
          | some (Except.ok r, s2) => some (Except.ok r, s2)
          | some (Except.error _, s2) =>
              match odd_one_out peg move_to with
              | some mt => do_auto_loop s2 mt sz
              | none => none
          | none => none
        else
          match odd_one_out peg move_to with
          | some mt => do_auto_loop s mt sz
          | none => none
      else do_auto_loop s move_to sz

/-- Executes an automatic move (`State::do_auto`).  The loop bound
`largest + 1` is a `u8` computation, hence the `% 256`; the Rust range
`1..m` reversed iterates `m - 1` values downward. -/
def State.do_auto (s : State) : Option (Except HanoiError NextStep × State) :=
  do_auto_loop s s.dest_peg ((s.largest_disk + 1) % 256 - 1)

/-- Total wrapper of `do_auto` used to iterate it; the default is never used
because `do_auto` never actually panics (`do_auto_isSome` below). -/
def doAutoD (s : State) : Except HanoiError NextStep × State :=
  (s.do_auto).getD (Except.error HanoiError.AlreadyDone, s)

/-- The state after `i` auto-solve steps starting from `State.new N`. -/
def runAuto (N i : Nat) : State :=
  (fun t => (doAutoD t).2)^[i] (State.new N)

/-- A tower is stacked legally: disk sizes strictly decrease from bottom
(head) to top (last). -/
def Decreasing (l : List Disk) : Prop :=
  l.Chain' (fun a b => b.sz < a.sz)

instance : IsTrans Disk (fun a b => b.sz < a.sz) :=
  ⟨fun _ _ _ h1 h2 => Nat.lt_trans h2 h1⟩

/-- The multiset of the disk sizes present anywhere in the state. -/
def diskMultiset (s : State) : Multiset Nat :=
  ((s.left ++ s.center ++ s.right).map Disk.sz : List Nat)

/-- The disk-partition invariant for an `N`-disk puzzle: every peg is stacked
legally and the disks across the three pegs are exactly `{1, ..., N}`, each
size once. -/
def DiskInv (N : Nat) (s : State) : Prop :=
  Decreasing s.left ∧ Decreasing s.center ∧ Decreasing s.right ∧
    diskMultiset s = (List.range' 1 N : Multiset Nat)

/-- The peg holding disk `k` (meaningful under `DiskInv` for `1 ≤ k ≤ N`). -/
def pegOf (s : State) (k : Nat) : Peg :=
  find_disk s (Disk.mk k)

/-- States reachable from the initial `N`-disk state by any sequence of
(possibly failing) `do_move` and `do_auto` calls. -/
inductive Reachable (N : Nat) : State → Prop where
  | init : Reachable N (State.new N)
  | step_move (s : State) (mov : Move) (r : Except HanoiError NextStep) (s' : State) :
      Reachable N s → s.do_move mov = some (r, s') → Reachable N s'
  | step_auto (s : State) (r : Except HanoiError NextStep) (s' : State) :
      Reachable N s → s.do_auto = some (r, s') → Reachable N s'

/-- Modelled from the spec (section 4.1, for the refinement claim C4): the
solved condition in the spec's words — the start peg (Left) is empty and one
of the other two pegs holds all `N` disks. -/
def specSolved (N : Nat) (s : State) : Prop :=
  s.left = [] ∧
    ((s.center.map Disk.sz : Multiset Nat) = (List.range' 1 N : Multiset Nat) ∨
     (s.right.map Disk.sz : Multiset Nat) = (List.range' 1 N : Multiset Nat))

/-- Total version of `odd_one_out` for the abstract solver analysis (junk
value on the diagonal, where the source panics). -/
def odd3 (p1 p2 : Peg) : Peg :=
  match p1, p2 with
  | Peg.Left, Peg.Center => Peg.Right
  | Peg.Center, Peg.Left => Peg.Right
  | Peg.Left, Peg.Right => Peg.Center
  | Peg.Right, Peg.Left => Peg.Center
  | Peg.Center, Peg.Right => Peg.Left
  | Peg.Right, Peg.Center => Peg.Left
  | p, _ => p

/-- One step of the target-peg bookkeeping of the solver's walk: if disk `q`
already sits on the target `t`, the target is unchanged, otherwise it becomes
the odd peg out. -/
def nextTgt (q t : Peg) : Peg :=
  if q = t then t else odd3 q t

/-- The number of moves this solver still needs, walking disks `k, k-1, ..., 1`
with current target `t`, when disk `j` sits on peg `p j`: a misplaced disk `j`
costs `2^(j-1)` and redirects the target for the smaller disks. -/
def phi (p : Nat → Peg) (t : Peg) : Nat → Nat
  | 0 => 0
  | k + 1 => (if p (k + 1) = t then 0 else 2 ^ k) + phi p (nextTgt (p (k + 1)) t) k

/-- The walk's target when it reaches level `k`, having started at level `sz`
with target `t`. -/
def tgtAt (p : Nat → Peg) : Peg → Nat → Nat → Peg
  | t, 0, _ => t
  | t, sz + 1, k => if sz + 1 ≤ k then t else tgtAt p (nextTgt (p (sz + 1)) t) sz k

/-- The largest disk in `1..N` not on the left peg (`0` if all are on the
left): abstract counterpart of `do_auto`'s `largest_not_on_start`. -/
def mOf (N : Nat) (p : Nat → Peg) : Nat :=
  ((List.range' 1 N).filter (fun j => decide (p j ≠ Peg.Left))).foldr max 0

/-- Abstract counterpart of `do_auto`'s `dest_peg`, in terms of the
peg-assignment of the disks. -/
def destF (N : Nat) (p : Nat → Peg) : Peg :=
  if mOf N p = 0 then Peg.Right
  else if (p (mOf N p) = Peg.Center) ↔ ((N - mOf N p) % 2 = 1) then Peg.Right
  else Peg.Center

/-! ## Basic lemmas about towers -/

theorem get_tower_set_tower (s : State) (p q : Peg) (l : List Disk) :
    (s.set_tower p l).get_tower q = if q = p then l else s.get_tower q := by
  cases p <;> cases q <;> simp [State.set_tower, State.get_tower]

theorem set_tower_get_self (s : State) (p : Peg) :
    s.set_tower p (s.get_tower p) = s := by
  cases p <;> simp [State.set_tower, State.get_tower]

theorem state_eq_of_towers (s s' : State) (h : ∀ p, s.get_tower p = s'.get_tower p) :
    s = s' := by
  cases s; cases s'
  have hl := h Peg.Left; have hc := h Peg.Center; have hr := h Peg.Right
  simp only [State.get_tower] at hl hc hr
  simp [hl, hc, hr]

theorem peek_disk_def (s : State) (p : Peg) :
    s.peek_disk p = (s.get_tower p).getLast? := rfl

theorem disk_eta (d : Disk) : d = Disk.mk d.sz := rfl

/-! ## Lemmas about `Decreasing` towers -/

theorem decreasing_iff_pairwise (l : List Disk) :
    Decreasing l ↔ l.Pairwise (fun a b => b.sz < a.sz) := by
  unfold Decreasing
  apply List.chain'_iff_pairwise (R := fun a b : Disk => b.sz < a.sz)
    (l := l)

theorem Decreasing.dropLast {l : List Disk} (h : Decreasing l) : Decreasing l.dropLast := by
  rw [decreasing_iff_pairwise] at h ⊢
  exact h.sublist (List.dropLast_sublist l)

theorem Decreasing.getLast_min {l : List Disk} (h : Decreasing l) (m : Disk)
    (hm : l.getLast? = some m) (d : Disk) (hd : d ∈ l.dropLast) : m.sz < d.sz := by
  rw [decreasing_iff_pairwise] at h
  have hne : l ≠ [] := by intro he; rw [he] at hm; simp at hm
  have hl : l.dropLast ++ [l.getLast hne] = l := List.dropLast_append_getLast hne
  have hm' : l.getLast hne = m := by
    have := List.getLast?_eq_getLast l hne
    rw [this] at hm; exact Option.some.inj hm
  rw [← hl] at h
  have := (List.pairwise_append.mp h).2.2
  have := this d hd (l.getLast hne) (by simp)
  rw [hm'] at this; exact this

theorem Decreasing.getLast_le {l : List Disk} (h : Decreasing l) (m : Disk)
    (hm : l.getLast? = some m) (d : Disk) (hd : d ∈ l) : m.sz ≤ d.sz := by
  have hne : l ≠ [] := by intro he; rw [he] at hm; simp at hm
  have hl : l.dropLast ++ [l.getLast hne] = l := List.dropLast_append_getLast hne
  rw [← hl] at hd
  rcases List.mem_append.mp hd with h1 | h2
  · exact Nat.le_of_lt (h.getLast_min m hm d h1)
  · have : d = l.getLast hne := by simpa using h2
    have hm' : l.getLast hne = m := by
      have := List.getLast?_eq_getLast l hne
      rw [this] at hm; exact Option.some.inj hm
    rw [this, hm']

theorem Decreasing.head_max {l : List Disk} (h : Decreasing l) (m : Disk)
    (hm : l.head? = some m) (d : Disk) (hd : d ∈ l) : d.sz ≤ m.sz := by
  rw [decreasing_iff_pairwise] at h
  cases l with
  | nil => simp at hm
  | cons a as =>
    have ha : a = m := by simpa using hm
    rcases List.mem_cons.mp hd with h1 | h2
    · rw [h1, ha]
    · have := (List.pairwise_cons.mp h).1 d h2
      rw [ha] at this; exact Nat.le_of_lt this

theorem Decreasing.push {l : List Disk} (h : Decreasing l) (d : Disk)
    (hd : ∀ x ∈ l, d.sz < x.sz) : Decreasing (l ++ [d]) := by
  rw [decreasing_iff_pairwise] at h ⊢
  rw [List.pairwise_append]
  refine ⟨h, by simp, ?_⟩
  intro x hx y hy
  have : y = d := by simpa using hy
  rw [this]; exact hd x hx

/-! ## Membership machinery under the invariant -/

theorem mem_range1 {m N : Nat} : m ∈ List.range' 1 N ↔ 1 ≤ m ∧ m ≤ N := by
  rw [List.mem_range']
  constructor
  · rintro ⟨i, hi, rfl⟩; omega
  · intro ⟨h1, h2⟩; exact ⟨m - 1, by omega, by omega⟩

theorem diskInv_sizes_perm {N : Nat} {s : State} (h : DiskInv N s) :
    ((s.left ++ s.center ++ s.right).map Disk.sz).Perm (List.range' 1 N) := by
  have := h.2.2.2
  unfold diskMultiset at this
  exact Multiset.coe_eq_coe.mp this

theorem diskInv_nodup {N : Nat} {s : State} (h : DiskInv N s) :
    ((s.left ++ s.center ++ s.right).map Disk.sz).Nodup :=
  (diskInv_sizes_perm h).symm.nodup (List.nodup_range' 1 N)

theorem mem_sizes_iff_mem_towers {s : State} {k : Nat} :
    k ∈ (s.left ++ s.center ++ s.right).map Disk.sz ↔
      (Disk.mk k ∈ s.left ∨ Disk.mk k ∈ s.center ∨ Disk.mk k ∈ s.right) := by
  simp only [List.mem_map, List.mem_append]
  constructor
  · rintro ⟨d, hd, rfl⟩
    have : d = Disk.mk d.sz := rfl
    rw [← this]
    tauto
  · intro h
    refine ⟨Disk.mk k, ?_, rfl⟩
    tauto

theorem diskInv_mem_total {N : Nat} {s : State} (h : DiskInv N s) {k : Nat}
    (h1 : 1 ≤ k) (h2 : k ≤ N) :
    Disk.mk k ∈ s.left ∨ Disk.mk k ∈ s.center ∨ Disk.mk k ∈ s.right := by
  rw [← mem_sizes_iff_mem_towers]
  exact ((diskInv_sizes_perm h).mem_iff).mpr (mem_range1.mpr ⟨h1, h2⟩)

theorem diskInv_size_bounds {N : Nat} {s : State} (h : DiskInv N s) {d : Disk} {p : Peg}
    (hd : d ∈ s.get_tower p) : 1 ≤ d.sz ∧ d.sz ≤ N := by
  have hmem : d.sz ∈ (s.left ++ s.center ++ s.right).map Disk.sz := by
    apply List.mem_map_of_mem
    cases p <;> simp only [State.get_tower] at hd <;> simp [hd]
  exact mem_range1.mp ((diskInv_sizes_perm h).mem_iff.mp hmem)

theorem diskInv_disjoint {N : Nat} {s : State} (h : DiskInv N s) {d : Disk} {p q : Peg}
    (hp : d ∈ s.get_tower p) (hq : d ∈ s.get_tower q) : p = q := by
  have hnd := diskInv_nodup h
  rw [List.map_append, List.map_append] at hnd
  have h12 : (s.left.map Disk.sz ++ s.center.map Disk.sz).Disjoint (s.right.map Disk.sz) :=
    List.disjoint_of_nodup_append hnd
  have hLC : (s.left.map Disk.sz).Disjoint (s.center.map Disk.sz) :=
    List.disjoint_of_nodup_append (List.nodup_append.mp hnd).1
  have hLR : (s.left.map Disk.sz).Disjoint (s.right.map Disk.sz) :=
    fun a ha => h12 (List.mem_append.mpr (Or.inl ha))
  have hCR : (s.center.map Disk.sz).Disjoint (s.right.map Disk.sz) :=
    fun a ha => h12 (List.mem_append.mpr (Or.inr ha))
  cases p <;> cases q <;> simp only [State.get_tower] at hp hq
  · rfl
  · exact absurd (List.mem_map_of_mem Disk.sz hq) (hLC (List.mem_map_of_mem Disk.sz hp))
  · exact absurd (List.mem_map_of_mem Disk.sz hq) (hLR (List.mem_map_of_mem Disk.sz hp))
  · exact absurd (List.mem_map_of_mem Disk.sz hp) (hLC (List.mem_map_of_mem Disk.sz hq))
  · rfl
  · exact absurd (List.mem_map_of_mem Disk.sz hq) (hCR (List.mem_map_of_mem Disk.sz hp))
  · exact absurd (List.mem_map_of_mem Disk.sz hp) (hLR (List.mem_map_of_mem Disk.sz hq))
  · exact absurd (List.mem_map_of_mem Disk.sz hp) (hCR (List.mem_map_of_mem Disk.sz hq))
  · rfl

theorem pegOf_eq_of_mem {N : Nat} {s : State} (h : DiskInv N s) {k : Nat} {p : Peg}
    (hk : Disk.mk k ∈ s.get_tower p) : pegOf s k = p := by
  unfold pegOf find_disk
  by_cases hl : Disk.mk k ∈ s.left
  · rw [if_pos hl]
    exact (diskInv_disjoint h (p := Peg.Left) hl hk).symm ▸ rfl
  · rw [if_neg hl]
    by_cases hc : Disk.mk k ∈ s.center
    · rw [if_pos hc]
      exact (diskInv_disjoint h (p := Peg.Center) hc hk).symm ▸ rfl
    · rw [if_neg hc]
      cases p with
      | Left => exact absurd hk hl
      | Center => exact absurd hk hc
      | Right => rfl

theorem pegOf_mem {N : Nat} {s : State} (h : DiskInv N s) {k : Nat}
    (h1 : 1 ≤ k) (h2 : k ≤ N) : Disk.mk k ∈ s.get_tower (pegOf s k) := by
  rcases diskInv_mem_total h h1 h2 with hm | hm | hm
  · rw [pegOf_eq_of_mem h (p := Peg.Left) hm]; exact hm
  · rw [pegOf_eq_of_mem h (p := Peg.Center) hm]; exact hm
  · rw [pegOf_eq_of_mem h (p := Peg.Right) hm]; exact hm

theorem diskInv_decreasing {N : Nat} {s : State} (h : DiskInv N s) (p : Peg) :
    Decreasing (s.get_tower p) := by
  cases p
  · exact h.1
  · exact h.2.1
  · exact h.2.2.1

theorem peek_some_of_mem {s : State} {q : Peg} {d : Disk} (hd : d ∈ s.get_tower q) :
    ∃ m, s.peek_disk q = some m := by
  unfold State.peek_disk
  have : s.get_tower q ≠ [] := by
    intro he; rw [he] at hd; simp at hd
  rcases Option.isSome_iff_exists.mp (List.getLast?_isSome.mpr this) with ⟨m, hm⟩
  exact ⟨m, hm⟩

theorem top_iff {N : Nat} {s : State} (h : DiskInv N s) {k : Nat} {q : Peg}
    (h1 : 1 ≤ k) (h2 : k ≤ N) (hq : pegOf s k = q) :
    s.peek_disk q = some (Disk.mk k) ↔ ∀ j, 1 ≤ j → j < k → pegOf s j ≠ q := by
  have hmem : Disk.mk k ∈ s.get_tower q := hq ▸ pegOf_mem h h1 h2
  constructor
  · intro htop j hj1 hj2 hjq
    have hjm : Disk.mk j ∈ s.get_tower q := hjq ▸ pegOf_mem h hj1 (le_trans (le_of_lt hj2) h2)
    have := (diskInv_decreasing h q).getLast_le (Disk.mk k) htop (Disk.mk j) hjm
    simp only [Disk.mk.injEq] at this
    omega
  · intro hno
    rcases peek_some_of_mem hmem with ⟨m, hm⟩
    have hmmem : m ∈ s.get_tower q := List.mem_of_getLast?_eq_some hm
    have hb := diskInv_size_bounds h hmmem
    have hple : pegOf s m.sz = q := pegOf_eq_of_mem h (by rw [← disk_eta]; exact hmmem)
    have hmk : m.sz ≥ k := by
      by_contra hlt
      exact hno m.sz hb.1 (by omega) hple
    have hkm : m.sz ≤ k := (diskInv_decreasing h q).getLast_le m hm (Disk.mk k) hmem
    have : m = Disk.mk k := by
      rw [disk_eta m]
      congr 1
      omega
    rw [hm, this]

theorem firstSize_of_head {l : List Disk} {m : Disk} (h : l.head? = some m) :
    firstSize l = m.sz := by
  unfold firstSize; rw [h]

theorem firstSize_of_nil {l : List Disk} (h : l.head? = none) :
    firstSize l = 0 := by
  unfold firstSize; rw [h]

theorem firstSize_eq_max {N : Nat} {s : State} (h : DiskInv N s) (q : Peg) :
    (firstSize (s.get_tower q) = 0 → s.get_tower q = []) ∧
    (∀ d ∈ s.get_tower q, d.sz ≤ firstSize (s.get_tower q)) ∧
    (s.get_tower q ≠ [] → Disk.mk (firstSize (s.get_tower q)) ∈ s.get_tower q) := by
  cases hl : (s.get_tower q).head? with
  | none =>
      rw [List.head?_eq_none_iff] at hl
      refine ⟨fun _ => hl, ?_, fun hne => absurd hl hne⟩
      intro d hd; rw [hl] at hd; simp at hd
  | some m =>
      have hmmem : m ∈ s.get_tower q := List.mem_of_mem_head? hl
      have hb := diskInv_size_bounds h hmmem
      rw [firstSize_of_head hl]
      refine ⟨fun h0 => by omega, ?_, fun _ => by rw [← disk_eta]; exact hmmem⟩
      intro d hd
      exact (diskInv_decreasing h q).head_max m hl d hd

theorem largest_of_inv {N : Nat} {s : State} (h : DiskInv N s) (hN : 1 ≤ N) :
    s.largest_disk = N := by
  have hup : ∀ q : Peg, firstSize (s.get_tower q) ≤ N := by
    intro q
    by_cases hq : s.get_tower q = []
    · rw [hq, firstSize_of_nil (by simp)]; omega
    · exact (diskInv_size_bounds h ((firstSize_eq_max h q).2.2 hq)).2
  have hlow : ∃ q : Peg, N ≤ firstSize (s.get_tower q) := by
    have hmem := pegOf_mem h hN (le_refl N)
    exact ⟨pegOf s N, (firstSize_eq_max h (pegOf s N)).2.1 _ hmem⟩
  rcases hlow with ⟨q, hq⟩
  have h1 := hup Peg.Left
  have h2 := hup Peg.Center
  have h3 := hup Peg.Right
  unfold State.largest_disk
  cases q <;> simp only [State.get_tower] at * <;> omega

theorem diskInv_zero {s : State} (h : DiskInv 0 s) : s = State.mk [] [] [] := by
  have := h.2.2.2
  unfold diskMultiset at this
  simp only [List.range', Multiset.coe_nil] at this
  have : (s.left ++ s.center ++ s.right).map Disk.sz = [] := by
    have h2 := Multiset.coe_eq_coe.mp (by exact_mod_cast this)
    exact List.Perm.eq_nil h2
  rw [List.map_eq_nil_iff, List.append_eq_nil, List.append_eq_nil] at this
  cases s; simp_all

theorem done_iff (s : State) :
    s.done = true ↔ s.left = [] ∧ (s.right = [] ∨ s.center = []) := by
  unfold State.done
  simp [List.isEmpty_iff]

theorem tower_empty_of_no_disk {N : Nat} {s : State} (h : DiskInv N s) {q : Peg}
    (hq : ∀ j, 1 ≤ j → j ≤ N → pegOf s j ≠ q) : s.get_tower q = [] := by
  by_contra hne
  rcases List.exists_mem_of_ne_nil _ hne with ⟨d, hd⟩
  have hb := diskInv_size_bounds h hd
  exact hq d.sz hb.1 hb.2 (pegOf_eq_of_mem h (by rw [← disk_eta]; exact hd))

theorem all_on_done {N : Nat} {s : State} (h : DiskInv N s) {P : Peg}
    (hP : P ≠ Peg.Left) (hall : ∀ j, 1 ≤ j → j ≤ N → pegOf s j = P) :
    s.done = true := by
  rw [done_iff]
  have hempty : ∀ q : Peg, q ≠ P → s.get_tower q = [] := by
    intro q hq
    refine tower_empty_of_no_disk h (fun j hj1 hj2 hjq => hq ?_)
    rw [← hjq, hall j hj1 hj2]
  cases P with
  | Left => exact absurd rfl hP
  | Center =>
      refine ⟨hempty Peg.Left (by simp), Or.inl (hempty Peg.Right (by simp))⟩
  | Right =>
      refine ⟨hempty Peg.Left (by simp), Or.inr (hempty Peg.Center (by simp))⟩

theorem done_all_on {N : Nat} {s : State} (h : DiskInv N s) (hd : s.done = true) :
    ∃ P, P ≠ Peg.Left ∧ ∀ j, 1 ≤ j → j ≤ N → pegOf s j = P := by
  rw [done_iff] at hd
  rcases hd with ⟨hl, hrc⟩
  rcases hrc with hr | hc
  · refine ⟨Peg.Center, by simp, fun j hj1 hj2 => ?_⟩
    rcases diskInv_mem_total h hj1 hj2 with hm | hm | hm
    · rw [hl] at hm; simp at hm
    · exact pegOf_eq_of_mem h (p := Peg.Center) hm
    · rw [hr] at hm; simp at hm
  · refine ⟨Peg.Right, by simp, fun j hj1 hj2 => ?_⟩
    rcases diskInv_mem_total h hj1 hj2 with hm | hm | hm
    · rw [hl] at hm; simp at hm
    · rw [hc] at hm; simp at hm
    · exact pegOf_eq_of_mem h (p := Peg.Right) hm

/-! ## Lemmas about `do_move` -/

theorem set_tower_set_tower (s : State) (p : Peg) (l l' : List Disk) :
    (s.set_tower p l).set_tower p l' = s.set_tower p l' := by
  cases p <;> simp [State.set_tower]

theorem dropLast_append_getLast_of_some {l : List Disk} {d : Disk}
    (h : l.getLast? = some d) : l.dropLast ++ [d] = l := by
  have hne : l ≠ [] := by intro he; rw [he] at h; simp at h
  have := List.getLast?_eq_getLast l hne
  rw [this] at h
  rw [← Option.some.inj h]
  exact List.dropLast_append_getLast hne

theorem do_move_error {s : State} {mov : Move} {e : HanoiError} {s' : State}
    (h : s.do_move mov = some (Except.error e, s')) : s' = s := by
  unfold State.do_move at h
  cases hcm : s.can_move mov with
  | some err => rw [hcm] at h; simp at h; exact h.2.symm
  | none =>
      rw [hcm] at h
      cases hp : s.pop_disk mov.fromPeg with
      | none => rw [hp] at h; simp at h
      | some ds =>
          rw [hp] at h
          cases hpu : ds.2.push_disk mov.toPeg ds.1 with
          | error _ => simp [hpu] at h
          | ok s2 => simp [hpu] at h

theorem do_move_empty {s : State} {mov : Move} (h : s.peek_disk mov.fromPeg = none) :
    s.do_move mov = some (Except.error (HanoiError.EmptyFrom mov.fromPeg), s) := by
  unfold State.do_move State.can_move
  rw [h]

theorem do_move_self {s : State} {p : Peg} (hne : s.get_tower p ≠ [])
    (hdec : Decreasing (s.get_tower p)) (hsz : ∀ d ∈ s.get_tower p, d.sz ≤ 255) :
    s.do_move { fromPeg := p, toPeg := p } =
      some (Except.ok (if s.done then NextStep.Win else NextStep.Continue), s) := by
  rcases Option.isSome_iff_exists.mp (List.getLast?_isSome.mpr hne) with ⟨m, hm⟩
  have hpeek : s.peek_disk p = some m := hm
  have hcm : s.can_move { fromPeg := p, toPeg := p } = none := by
    unfold State.can_move
    rw [hpeek]
    simp
  have hpop : s.pop_disk p = some (m, s.set_tower p (s.get_tower p).dropLast) := by
    unfold State.pop_disk
    rw [hm]
  set s1 := s.set_tower p (s.get_tower p).dropLast with hs1
  have hs1t : s1.get_tower p = (s.get_tower p).dropLast := by
    rw [hs1, get_tower_set_tower]; simp
  have hpush : s1.push_disk p m = Except.ok s := by
    unfold State.push_disk
    have hcond : m.sz ≤ (match s1.peek_disk p with | some d => d.sz | none => 255) := by
      cases hl : s1.peek_disk p with
      | none => exact hsz m (List.mem_of_getLast?_eq_some hm)
      | some m2 =>
          unfold State.peek_disk at hl
          rw [hs1t] at hl
          exact Nat.le_of_lt (hdec.getLast_min m hm m2 (List.mem_of_getLast?_eq_some hl))
    rw [if_pos hcond]
    congr 1
    rw [hs1t, set_tower_set_tower, dropLast_append_getLast_of_some hm, set_tower_get_self]
  unfold State.do_move
  simp only [hcm, hpop, hpush]

theorem diskMultiset_towers (s : State) :
    diskMultiset s = ((s.left.map Disk.sz : List Nat) : Multiset Nat) +
      ((s.center.map Disk.sz : List Nat) : Multiset Nat) +
      ((s.right.map Disk.sz : List Nat) : Multiset Nat) := by
  unfold diskMultiset
  rw [List.map_append, List.map_append, ← Multiset.coe_add, ← Multiset.coe_add]

theorem push_disk_ok {s : State} {p : Peg} {d : Disk}
    (h : d.sz ≤ ((s.peek_disk p).getD (Disk.mk 255)).sz) :
    s.push_disk p d = Except.ok (s.set_tower p (s.get_tower p ++ [d])) := by
  unfold State.push_disk
  cases hpt : s.peek_disk p with
  | none =>
      have h' : d.sz ≤ 255 := by rw [hpt] at h; simpa using h
      simp only [hpt, if_pos h']
  | some m =>
      have h' : d.sz ≤ m.sz := by rw [hpt] at h; simpa using h
      simp only [hpt, if_pos h']

theorem can_move_eq {s : State} {q t : Peg} {f : Disk} (hf : s.peek_disk q = some f) :
    s.can_move { fromPeg := q, toPeg := t } =
      if f.sz ≤ ((s.peek_disk t).getD (Disk.mk 255)).sz then none
      else some (HanoiError.UnstableStack t ((s.peek_disk t).getD (Disk.mk 255))) := by
  unfold State.can_move
  simp only [hf]

theorem do_move_success {s : State} {q t : Peg} {k : Nat} (hqt : q ≠ t)
    (htop : s.peek_disk q = some (Disk.mk k))
    (hcm : s.can_move { fromPeg := q, toPeg := t } = none) :
    ∃ s', s.do_move { fromPeg := q, toPeg := t } =
        some (Except.ok (if s'.done then NextStep.Win else NextStep.Continue), s') ∧
      s'.get_tower q = (s.get_tower q).dropLast ∧
      s'.get_tower t = s.get_tower t ++ [Disk.mk k] ∧
      (∀ p, p ≠ q → p ≠ t → s'.get_tower p = s.get_tower p) := by
  have hpop : s.pop_disk q = some (Disk.mk k, s.set_tower q (s.get_tower q).dropLast) := by
    unfold State.pop_disk
    rw [show (s.get_tower q).getLast? = some (Disk.mk k) from htop]
  set s1 := s.set_tower q (s.get_tower q).dropLast with hs1
  have hs1t : s1.get_tower t = s.get_tower t := by
    rw [hs1, get_tower_set_tower, if_neg (Ne.symm hqt)]
  have hs1peek : s1.peek_disk t = s.peek_disk t := by
    unfold State.peek_disk
    rw [hs1t]
  have hcond : k ≤ ((s.peek_disk t).getD (Disk.mk 255)).sz := by
    rw [can_move_eq htop] at hcm
    by_contra hgt
    rw [if_neg (by simpa using hgt)] at hcm
    exact Option.noConfusion hcm
  have hpush : s1.push_disk t (Disk.mk k) =
      Except.ok (s1.set_tower t (s1.get_tower t ++ [Disk.mk k])) := by
    apply push_disk_ok
    rw [hs1peek]
    exact hcond
  refine ⟨s1.set_tower t (s1.get_tower t ++ [Disk.mk k]), ?_, ?_, ?_, ?_⟩
  · unfold State.do_move
    simp only [hcm, hpop, hpush]
  · rw [get_tower_set_tower, if_neg hqt, hs1, get_tower_set_tower, if_pos rfl]
  · rw [get_tower_set_tower, if_pos rfl, hs1t]
  · intro p hpq hpt
    rw [get_tower_set_tower, if_neg hpt, hs1, get_tower_set_tower, if_neg hpq]

theorem diskInv_of_move {N : Nat} {s s' : State} {q t : Peg} {k : Nat}
    (h : DiskInv N s) (hqt : q ≠ t)
    (htop : s.peek_disk q = some (Disk.mk k))
    (hgt : ∀ d ∈ s.get_tower t, k < d.sz)
    (h1 : s'.get_tower q = (s.get_tower q).dropLast)
    (h2 : s'.get_tower t = s.get_tower t ++ [Disk.mk k])
    (h3 : ∀ p, p ≠ q → p ≠ t → s'.get_tower p = s.get_tower p) :
    DiskInv N s' := by
  have hsplit : (s.get_tower q).dropLast ++ [Disk.mk k] = s.get_tower q :=
    dropLast_append_getLast_of_some htop
  have hdec : ∀ p, Decreasing (s'.get_tower p) := by
    intro p
    by_cases hpq : p = q
    · rw [hpq, h1]
      exact (diskInv_decreasing h q).dropLast
    · by_cases hpt : p = t
      · rw [hpt, h2]
        exact (diskInv_decreasing h t).push (Disk.mk k) hgt
      · rw [h3 p hpq hpt]
        exact diskInv_decreasing h p
  have hms : diskMultiset s' = diskMultiset s := by
    have hq' : ((s'.get_tower q).map Disk.sz : Multiset Nat) +
        (([Disk.mk k].map Disk.sz : List Nat) : Multiset Nat) =
        ((s.get_tower q).map Disk.sz : Multiset Nat) := by
      rw [h1, Multiset.coe_add, ← List.map_append, hsplit]
    have ht' : ((s'.get_tower t).map Disk.sz : Multiset Nat) =
        ((s.get_tower t).map Disk.sz : Multiset Nat) +
        (([Disk.mk k].map Disk.sz : List Nat) : Multiset Nat) := by
      rw [h2, List.map_append, ← Multiset.coe_add]
    rw [diskMultiset_towers, diskMultiset_towers]
    cases q with
    | Left =>
        cases t with
        | Left => exact absurd rfl hqt
        | Center =>
            have hu := h3 Peg.Right (by decide) (by decide)
            simp only [State.get_tower] at hq' ht' hu
            rw [← hq', ht', hu]; abel
        | Right =>
            have hu := h3 Peg.Center (by decide) (by decide)
            simp only [State.get_tower] at hq' ht' hu
            rw [← hq', ht', hu]; abel
    | Center =>
        cases t with
        | Left =>
            have hu := h3 Peg.Right (by decide) (by decide)
            simp only [State.get_tower] at hq' ht' hu
            rw [← hq', ht', hu]; abel
        | Center => exact absurd rfl hqt
        | Right =>
            have hu := h3 Peg.Left (by decide) (by decide)
            simp only [State.get_tower] at hq' ht' hu
            rw [← hq', ht', hu]; abel
    | Right =>
        cases t with
        | Left =>
            have hu := h3 Peg.Center (by decide) (by decide)
            simp only [State.get_tower] at hq' ht' hu
            rw [← hq', ht', hu]; abel
        | Center =>
            have hu := h3 Peg.Left (by decide) (by decide)
            simp only [State.get_tower] at hq' ht' hu
            rw [← hq', ht', hu]; abel
        | Right => exact absurd rfl hqt
  refine ⟨?_, ?_, ?_, ?_⟩
  · have := hdec Peg.Left; simpa only [State.get_tower] using this
  · have := hdec Peg.Center; simpa only [State.get_tower] using this
  · have := hdec Peg.Right; simpa only [State.get_tower] using this
  · rw [hms]; exact h.2.2.2

theorem push_disk_error {s : State} {p : Peg} {d : Disk}
    (h : ¬ d.sz ≤ ((s.peek_disk p).getD (Disk.mk 255)).sz) :
    s.push_disk p d = Except.error (HanoiError.UnstableStack p d) := by
  unfold State.push_disk
  cases hpt : s.peek_disk p with
  | none =>
      have h' : ¬ d.sz ≤ 255 := by rw [hpt] at h; simpa using h
      simp only [hpt, if_neg h']
  | some m =>
      have h' : ¬ d.sz ≤ m.sz := by rw [hpt] at h; simpa using h
      simp only [hpt, if_neg h']

theorem can_move_none_peek {s : State} {mov : Move} (h : s.can_move mov = none) :
    ∃ f, s.peek_disk mov.fromPeg = some f := by
  unfold State.can_move at h
  cases hf : s.peek_disk mov.fromPeg with
  | none => rw [hf] at h; exact Option.noConfusion h
  | some f => exact ⟨f, rfl⟩

theorem do_move_self_eq {s : State} {mov : Move} {r : Except HanoiError NextStep} {s' : State}
    (he : mov.fromPeg = mov.toPeg) (hm : s.do_move mov = some (r, s')) : s' = s := by
  obtain ⟨p, p', rfl, rfl⟩ : ∃ p p', mov.fromPeg = p ∧ mov.toPeg = p' := ⟨_, _, rfl, rfl⟩
  cases mov with
  | mk pf pt =>
      simp only at he
      subst he
      unfold State.do_move at hm
      cases hcm : s.can_move { fromPeg := pf, toPeg := pf } with
      | some err =>
          rw [hcm] at hm
          simp at hm
          exact hm.2.symm
      | none =>
          cases hgl : (s.get_tower pf).getLast? with
          | none =>
              have hpop : s.pop_disk pf = none := by
                unfold State.pop_disk; rw [hgl]
              simp only [hcm, hpop] at hm
              exact Option.noConfusion hm
          | some d =>
              have hpop : s.pop_disk pf =
                  some (d, s.set_tower pf (s.get_tower pf).dropLast) := by
                unfold State.pop_disk; rw [hgl]
              set s1 := s.set_tower pf (s.get_tower pf).dropLast with hs1
              by_cases hcond : d.sz ≤ ((s1.peek_disk pf).getD (Disk.mk 255)).sz
              · have hs1s : s1.set_tower pf (s1.get_tower pf ++ [d]) = s := by
                  rw [hs1, get_tower_set_tower, if_pos rfl, set_tower_set_tower,
                    dropLast_append_getLast_of_some hgl, set_tower_get_self]
                simp only [hcm, hpop, push_disk_ok hcond, hs1s] at hm
                simp at hm
                exact hm.2.symm
              · simp only [hcm, hpop, push_disk_error hcond] at hm
                exact Option.noConfusion hm

theorem tower_gt_of_can_move {N : Nat} {s : State} {q t : Peg} {k : Nat}
    (h : DiskInv N s) (hqt : q ≠ t) (hkq : Disk.mk k ∈ s.get_tower q)
    (hcm : s.can_move { fromPeg := q, toPeg := t } = none)
    (htop : s.peek_disk q = some (Disk.mk k)) :
    ∀ d ∈ s.get_tower t, k < d.sz := by
  intro d hd
  have hne : k ≠ d.sz := by
    intro hkd
    have : Disk.mk k ∈ s.get_tower t := by rw [hkd, ← disk_eta]; exact hd
    exact hqt (diskInv_disjoint h hkq this)
  cases hpt : s.peek_disk t with
  | none =>
      unfold State.peek_disk at hpt
      rw [List.getLast?_eq_none_iff] at hpt
      rw [hpt] at hd
      simp at hd
  | some m =>
      rw [can_move_eq htop] at hcm
      rw [hpt] at hcm
      have hkm : k ≤ m.sz := by
        by_contra hgt
        rw [if_neg (by simpa using hgt)] at hcm
        exact Option.noConfusion hcm
      have := (diskInv_decreasing h t).getLast_le m hpt d hd
      omega

theorem do_move_inv {N : Nat} {s : State} {mov : Move} {r : Except HanoiError NextStep}
    {s' : State} (h : DiskInv N s) (hm : s.do_move mov = some (r, s')) : DiskInv N s' := by
  cases r with
  | error e => rw [do_move_error hm]; exact h
  | ok r0 =>
      by_cases he : mov.fromPeg = mov.toPeg
      · rw [do_move_self_eq he hm]; exact h
      · have hcm : s.can_move mov = none := by
          unfold State.do_move at hm
          cases hcm : s.can_move mov with
          | some err => rw [hcm] at hm; simp at hm
          | none => rfl
        rcases can_move_none_peek hcm with ⟨f, hf⟩
        have hmov : mov = { fromPeg := mov.fromPeg, toPeg := mov.toPeg } := rfl
        have hf' : s.peek_disk mov.fromPeg = some (Disk.mk f.sz) := by
          rw [← disk_eta]; exact hf
        rcases do_move_success he hf' (hmov ▸ hcm) with ⟨s'', hmeq, h1, h2, h3⟩
        have hs'' : s' = s'' := by
          rw [hmov] at hm
          rw [hm] at hmeq
          exact (Prod.mk.injEq _ _ _ _ ▸ Option.some.inj hmeq).2
        rw [hs'']
        have hkq : Disk.mk f.sz ∈ s.get_tower mov.fromPeg :=
          List.mem_of_getLast?_eq_some hf'
        exact diskInv_of_move h he hf'
          (tower_gt_of_can_move h he hkq (hmov ▸ hcm) hf') h1 h2 h3

theorem pegOf_of_move {N : Nat} {s s' : State} {q t : Peg} {k : Nat}
    (h : DiskInv N s) (h' : DiskInv N s') (hqt : q ≠ t)
    (htop : s.peek_disk q = some (Disk.mk k))
    (h1 : s'.get_tower q = (s.get_tower q).dropLast)
    (h2 : s'.get_tower t = s.get_tower t ++ [Disk.mk k])
    (h3 : ∀ p, p ≠ q → p ≠ t → s'.get_tower p = s.get_tower p) :
    ∀ j, 1 ≤ j → j ≤ N → pegOf s' j = if j = k then t else pegOf s j := by
  intro j hj1 hj2
  by_cases hjk : j = k
  · rw [if_pos hjk, hjk]
    exact pegOf_eq_of_mem h' (by rw [h2]; simp)
  · rw [if_neg hjk]
    have hmem : Disk.mk j ∈ s.get_tower (pegOf s j) := pegOf_mem h hj1 hj2
    apply pegOf_eq_of_mem h'
    by_cases hpq : pegOf s j = q
    · rw [hpq] at hmem ⊢
      rw [h1]
      have hsplit : (s.get_tower q).dropLast ++ [Disk.mk k] = s.get_tower q :=
        dropLast_append_getLast_of_some htop
      rw [← hsplit] at hmem
      rcases List.mem_append.mp hmem with hin | hin
      · exact hin
      · exfalso; apply hjk; simpa using hin
    · by_cases hpt : pegOf s j = t
      · rw [hpt] at hmem ⊢
        rw [h2]
        exact List.mem_append.mpr (Or.inl hmem)
      · rw [h3 _ hpq hpt]
        exact hmem

/-! ## Abstract solver analysis: pegs, potential, target chain -/

theorem odd3_ne (p q : Peg) (h : p ≠ q) : odd3 p q ≠ p ∧ odd3 p q ≠ q := by
  cases p <;> cases q <;> revert h <;> decide

theorem peg_cases (x p q : Peg) (h : p ≠ q) : x = p ∨ x = q ∨ x = odd3 p q := by
  cases x <;> cases p <;> cases q <;> revert h <;> decide

theorem odd_one_out_eq (p q : Peg) (h : p ≠ q) : odd_one_out p q = some (odd3 p q) := by
  cases p <;> cases q <;> revert h <;> decide

theorem odd3_left_invol (t : Peg) (h : t ≠ Peg.Left) :
    odd3 Peg.Left (odd3 Peg.Left t) = t := by
  cases t <;> revert h <;> decide

theorem odd3_left_ne (t : Peg) (h : t ≠ Peg.Left) : odd3 Peg.Left t ≠ Peg.Left := by
  cases t <;> revert h <;> decide

theorem phi_congr {p p' : Nat → Peg} {t : Peg} {m : Nat}
    (h : ∀ j, 1 ≤ j → j ≤ m → p j = p' j) : phi p t m = phi p' t m := by
  induction m generalizing t with
  | zero => rfl
  | succ m ih =>
      unfold phi
      rw [h (m + 1) (by omega) (by omega)]
      rw [ih (fun j hj1 hj2 => h j hj1 (by omega))]

theorem phi_zero_iff {p : Nat → Peg} {t : Peg} {m : Nat} :
    phi p t m = 0 ↔ ∀ j, 1 ≤ j → j ≤ m → p j = t := by
  induction m generalizing t with
  | zero => simp [phi]; intro j h1 h2; omega
  | succ m ih =>
      unfold phi
      by_cases hp : p (m + 1) = t
      · rw [if_pos hp]
        unfold nextTgt
        rw [if_pos hp]
        simp only [Nat.zero_add]
        rw [ih]
        constructor
        · intro hall j hj1 hj2
          by_cases hj : j = m + 1
          · rw [hj]; exact hp
          · exact hall j hj1 (by omega)
        · intro hall j hj1 hj2
          exact hall j hj1 (by omega)
      · rw [if_neg hp]
        constructor
        · intro heq
          exfalso
          have : 2 ^ m > 0 := Nat.pos_pow_of_pos m (by omega)
          omega
        · intro hall
          exact absurd (hall (m + 1) (by omega) (by omega)) hp

theorem phi_all_on {p : Nat → Peg} {t a : Peg} {m : Nat}
    (hall : ∀ j, 1 ≤ j → j ≤ m → p j = a) (hat : a ≠ t) : phi p t m = 2 ^ m - 1 := by
  induction m generalizing t with
  | zero => rfl
  | succ m ih =>
      unfold phi
      have hp : p (m + 1) = a := hall (m + 1) (by omega) (by omega)
      rw [hp, if_neg hat]
      unfold nextTgt
      rw [if_neg hat]
      have hne : a ≠ odd3 a t := Ne.symm (odd3_ne a t hat).1
      rw [ih (fun j hj1 hj2 => hall j hj1 (by omega)) hne]
      have : 2 ^ m > 0 := Nat.pos_pow_of_pos m (by omega)
      rw [pow_succ]
      omega

theorem tgtAt_succ (p : Nat → Peg) (t : Peg) (sz k : Nat) :
    tgtAt p t (sz + 1) k =
      if sz + 1 ≤ k then t else tgtAt p (nextTgt (p (sz + 1)) t) sz k := rfl

theorem tgtAt_self (p : Nat → Peg) (t : Peg) (sz : Nat) : tgtAt p t sz sz = t := by
  cases sz with
  | zero => rfl
  | succ n => rw [tgtAt_succ, if_pos (by omega)]

theorem tgtAt_step (p : Nat → Peg) (t : Peg) {sz k : Nat} (h : k < sz + 1) :
    tgtAt p t (sz + 1) k = tgtAt p (nextTgt (p (sz + 1)) t) sz k := by
  rw [tgtAt_succ, if_neg (by omega)]

theorem tgtAt_left_run {p : Nat → Peg} {t : Peg} {sz k : Nat} (ht : t ≠ Peg.Left)
    (hrun : ∀ j, k < j → j ≤ sz → p j = Peg.Left) :
    tgtAt p t sz k = if (sz - k) % 2 = 0 then t else odd3 Peg.Left t := by
  induction sz generalizing t with
  | zero =>
      rw [if_pos (show (0 - k) % 2 = 0 by omega)]
      rfl
  | succ sz ih =>
      by_cases hk : sz + 1 ≤ k
      · rw [tgtAt_succ, if_pos hk, if_pos (by omega)]
      · rw [tgtAt_step p t (by omega)]
        have hpl : p (sz + 1) = Peg.Left := hrun (sz + 1) (by omega) (by omega)
        have hnt : nextTgt (p (sz + 1)) t = odd3 Peg.Left t := by
          unfold nextTgt
          rw [hpl, if_neg (Ne.symm ht)]
        rw [hnt]
        rw [ih (odd3_left_ne t ht) (fun j hj1 hj2 => hrun j hj1 (by omega))]
        rw [odd3_left_invol t ht]
        have hk' : k ≤ sz := by omega
        by_cases hpar : (sz - k) % 2 = 0
        · rw [if_pos hpar, if_neg (by omega)]
        · rw [if_neg hpar, if_pos (by omega)]

theorem foldr_max_spec (l : List Nat) :
    (∀ x ∈ l, x ≤ l.foldr max 0) ∧ (l.foldr max 0 ∈ l ∨ l.foldr max 0 = 0) := by
  induction l with
  | nil => simp
  | cons a l ih =>
      constructor
      · intro x hx
        rcases List.mem_cons.mp hx with rfl | hx
        · simp [List.foldr_cons]
        · calc x ≤ l.foldr max 0 := ih.1 x hx
            _ ≤ (a :: l).foldr max 0 := by simp [List.foldr_cons]
      · rcases Nat.le_total (l.foldr max 0) a with hle | hle
        · left
          rw [List.foldr_cons, Nat.max_eq_left hle]
          exact List.mem_cons_self a l
        · rcases ih.2 with hmem | hz
          · left
            rw [List.foldr_cons, Nat.max_eq_right hle]
            exact List.mem_cons_of_mem a hmem
          · right
            rw [List.foldr_cons, hz]
            rw [hz] at hle
            omega

theorem mOf_ub (N : Nat) (p : Nat → Peg) {j : Nat} (h1 : 1 ≤ j) (h2 : j ≤ N)
    (h3 : p j ≠ Peg.Left) : j ≤ mOf N p := by
  unfold mOf
  apply (foldr_max_spec _).1
  rw [List.mem_filter]
  exact ⟨mem_range1.mpr ⟨h1, h2⟩, by simpa using h3⟩

theorem mOf_mem (N : Nat) (p : Nat → Peg) :
    mOf N p = 0 ∨ (1 ≤ mOf N p ∧ mOf N p ≤ N ∧ p (mOf N p) ≠ Peg.Left) := by
  have hd : mOf N p =
      ((List.range' 1 N).filter (fun j => decide (p j ≠ Peg.Left))).foldr max 0 := rfl
  rw [hd]
  rcases (foldr_max_spec ((List.range' 1 N).filter (fun j => decide (p j ≠ Peg.Left)))).2
    with hmem | hz
  · right
    rw [List.mem_filter] at hmem
    have hr := mem_range1.mp hmem.1
    exact ⟨hr.1, hr.2, by simpa using hmem.2⟩
  · left; exact hz

theorem mOf_zero_iff (N : Nat) (p : Nat → Peg) :
    mOf N p = 0 ↔ ∀ j, 1 ≤ j → j ≤ N → p j = Peg.Left := by
  constructor
  · intro h0 j h1 h2
    by_contra hne
    have := mOf_ub N p h1 h2 hne
    omega
  · intro hall
    rcases mOf_mem N p with h0 | ⟨h1, h2, h3⟩
    · exact h0
    · exact absurd (hall _ h1 h2) h3

theorem mOf_congr {N : Nat} {p p' : Nat → Peg}
    (h : ∀ j, 1 ≤ j → j ≤ N → p j = p' j) : mOf N p = mOf N p' := by
  unfold mOf
  congr 1
  apply List.filter_congr
  intro x hx
  have hr := mem_range1.mp hx
  rw [h x hr.1 hr.2]

theorem destF_ne_left (N : Nat) (p : Nat → Peg) : destF N p ≠ Peg.Left := by
  unfold destF
  split_ifs <;> decide

theorem destF_congr {N : Nat} {p p' : Nat → Peg}
    (h : ∀ j, 1 ≤ j → j ≤ N → p j = p' j) : destF N p = destF N p' := by
  have hm := mOf_congr h
  unfold destF
  rw [← hm]
  rcases mOf_mem N p with h0 | ⟨h1, h2, _⟩
  · rw [if_pos h0, if_pos h0]
  · rw [h _ h1 h2]

theorem destF_of_pN {N : Nat} {p : Nat → Peg} (hN : 1 ≤ N) (h : p N ≠ Peg.Left) :
    destF N p = p N := by
  have hm : mOf N p = N := by
    have hub := mOf_ub N p hN (le_refl N) h
    rcases mOf_mem N p with h0 | ⟨_, h2, _⟩
    · omega
    · omega
  unfold destF
  rw [hm]
  rw [if_neg (by omega)]
  have : (N - N) % 2 = 0 := by omega
  rw [this]
  cases hpn : p N with
  | Left => exact absurd hpn h
  | Center => rw [if_neg (by simp [hpn])]
  | Right => rw [if_pos (by simp [hpn])]

theorem mOf_eq_of {N : Nat} {p : Nat → Peg} {m : Nat} (hm1 : 1 ≤ m) (hm2 : m ≤ N)
    (hml : p m ≠ Peg.Left) (habove : ∀ j, m < j → j ≤ N → p j = Peg.Left) :
    mOf N p = m := by
  have hub := mOf_ub N p hm1 hm2 hml
  rcases mOf_mem N p with h0 | ⟨h1, h2, h3⟩
  · omega
  · by_contra hne
    have hlt : m < mOf N p := by omega
    exact h3 (habove _ hlt h2)

theorem destF_pos {N : Nat} {p : Nat → Peg} {m : Nat} (hm : mOf N p = m) (h0 : m ≠ 0) :
    destF N p = if (p m = Peg.Center) ↔ ((N - m) % 2 = 1) then Peg.Right
      else Peg.Center := by
  unfold destF
  rw [hm, if_neg h0]

theorem destF_update {N k : Nat} {p : Nat → Peg} {q d : Peg}
    (hN : 1 ≤ N) (hk1 : 1 ≤ k) (hk2 : k ≤ N)
    (hq : q = p k) (hd : d = tgtAt p (destF N p) N k) (hqd : q ≠ d)
    (hsm : ∀ j, 1 ≤ j → j < k → p j = odd3 q d) :
    destF N (fun j => if j = k then d else p j) = destF N p := by
  set p' := fun j => if j = k then d else p j with hp'
  have hp'k : p' k = d := by rw [hp']; simp
  have hp'ne : ∀ j, j ≠ k → p' j = p j := by
    intro j hj; rw [hp']; simp [hj]
  by_cases hNL : p N = Peg.Left
  · -- the largest disk is on the left peg
    by_cases hkN : k = N
    · -- the move transfers the largest disk to the overall destination
      have hdD : d = destF N p := by rw [hd, hkN, tgtAt_self]
      have hdl : d ≠ Peg.Left := hdD ▸ destF_ne_left N p
      have hp'N : p' N = d := by rw [← hkN]; exact hp'k
      have hfin : destF N p' = p' N := destF_of_pN hN (by rw [hp'N]; exact hdl)
      rw [hfin, hp'N, hdD]
    · -- k < N; analyse the largest disk size `m` not on the left peg
      have hkN' : k < N := by omega
      have habove : ∀ j, mOf N p < j → j ≤ N → p j = Peg.Left := by
        intro j hj1 hj2
        by_contra hne
        have := mOf_ub N p (by omega) hj2 hne
        omega
      by_cases hm0 : mOf N p = 0
      · -- all disks on the left peg: the moved disk must be disk 1
        have hall : ∀ j, 1 ≤ j → j ≤ N → p j = Peg.Left := (mOf_zero_iff N p).mp hm0
        have hqL : q = Peg.Left := by rw [hq]; exact hall k hk1 hk2
        have hdl : d ≠ Peg.Left := fun hdl' => hqd (by rw [hqL, hdl'])
        have hk1' : k = 1 := by
          by_contra hne
          have h1 := hsm 1 (by omega) (by omega)
          rw [hall 1 (by omega) (by omega), hqL] at h1
          exact (odd3_ne Peg.Left d (fun he => hdl he.symm)).1 h1.symm
        subst hk1'
        have hDR : destF N p = Peg.Right := by
          unfold destF; rw [if_pos hm0]
        have hdval : d = if (N - 1) % 2 = 0 then Peg.Right else Peg.Center := by
          rw [hd, hDR, tgtAt_left_run (by decide)
            (fun j hj1 hj2 => hall j (by omega) hj2)]
          by_cases hpar : (N - 1) % 2 = 0
          · rw [if_pos hpar, if_pos hpar]
          · rw [if_neg hpar, if_neg hpar]; decide
        have hm' : mOf N p' = 1 := by
          apply mOf_eq_of (by omega) (by omega) (by rw [hp'k]; exact hdl)
          intro j hj1 hj2
          rw [hp'ne j (by omega)]
          exact hall j (by omega) hj2
        rw [destF_pos hm' (by omega), hp'k, hDR]
        by_cases hpar : (N - 1) % 2 = 0
        · have hdc : d = Peg.Right := by rw [hdval, if_pos hpar]
          rw [hdc, if_pos (iff_of_false (by decide) (by omega))]
        · have hdc : d = Peg.Center := by rw [hdval, if_neg hpar]
          rw [hdc, if_pos (iff_of_true rfl (by omega))]
      · -- some disk is off the left peg
        have hmmem : 1 ≤ mOf N p ∧ mOf N p ≤ N ∧ p (mOf N p) ≠ Peg.Left := by
          rcases mOf_mem N p with h0 | h1
          · exact absurd h0 hm0
          · exact h1
        have hmN : mOf N p < N := by
          rcases Nat.lt_or_ge (mOf N p) N with h | h
          · exact h
          · exfalso
            have he : mOf N p = N := by omega
            apply hmmem.2.2
            rw [he]
            exact hNL
        have hDval : destF N p = if (p (mOf N p) = Peg.Center) ↔ ((N - mOf N p) % 2 = 1)
            then Peg.Right else Peg.Center := destF_pos rfl hm0
        have hDL : destF N p ≠ Peg.Left := destF_ne_left N p
        rcases Nat.lt_trichotomy k (mOf N p) with hkm | hkm | hkm
        · -- k < m: the move happens strictly below m; m is untouched
          have hm' : mOf N p' = mOf N p := by
            apply mOf_eq_of hmmem.1 hmmem.2.1
            · rw [hp'ne _ (by omega)]; exact hmmem.2.2
            · intro j hj1 hj2
              rw [hp'ne j (by omega)]
              exact habove j hj1 hj2
          rw [destF_pos hm' (by omega), hp'ne _ (by omega), ← hDval]
        · -- k = m is impossible: disk m already sits on the walk's target
          exfalso
          have hdval : d = if (N - k) % 2 = 0 then destF N p
              else odd3 Peg.Left (destF N p) := by
            rw [hd, tgtAt_left_run hDL (by rw [← hkm] at habove; exact habove)]
          apply hqd
          rw [hq, hdval, hDval, ← hkm]
          cases hpm : p k with
          | Left =>
              exfalso
              apply hmmem.2.2
              rw [← hkm]
              exact hpm
          | Center =>
              by_cases hpar : (N - k) % 2 = 1
              · rw [if_neg (by omega), if_pos (iff_of_true rfl hpar)]; decide
              · rw [if_pos (by omega), if_neg (fun hh => hpar (hh.mp rfl))]
          | Right =>
              by_cases hpar : (N - k) % 2 = 1
              · rw [if_neg (by omega),
                  if_neg (fun hh => absurd (hh.mpr hpar) (by decide))]
                decide
              · rw [if_pos (by omega), if_pos (iff_of_false (by decide) hpar)]
        · -- k > m: the moved disk comes off the left peg; in fact k = m + 1
          have hqL : q = Peg.Left := by rw [hq]; exact habove k hkm hk2
          have hdl : d ≠ Peg.Left := fun hdl' => hqd (by rw [hqL, hdl'])
          have hkm1 : k = mOf N p + 1 := by
            by_contra hne
            have hlt : mOf N p + 1 < k := by omega
            have h1 := hsm (mOf N p + 1) (by omega) hlt
            rw [habove (mOf N p + 1) (by omega) (by omega), hqL] at h1
            exact (odd3_ne Peg.Left d (fun he => hdl he.symm)).1 h1.symm
          have hdval : d = if (N - k) % 2 = 0 then destF N p
              else odd3 Peg.Left (destF N p) := by
            rw [hd, tgtAt_left_run hDL (fun j hj1 hj2 => habove j (by omega) hj2)]
          have hm' : mOf N p' = k := by
            apply mOf_eq_of (by omega) (by omega) (by rw [hp'k]; exact hdl)
            intro j hj1 hj2
            rw [hp'ne j (by omega)]
            exact habove j (by omega) hj2
          rw [destF_pos hm' (by omega), hp'k, hDval]
          cases hpm : p (mOf N p) with
          | Left => exact absurd hpm hmmem.2.2
          | Center =>
              by_cases hpar : (N - mOf N p) % 2 = 1
              · -- destination Right, next parity even, walk target d = Right
                have hdc : d = Peg.Right := by
                  rw [hdval, if_pos (by omega), hDval, if_pos (iff_of_true hpm hpar)]
                rw [hdc, if_pos (iff_of_false (by decide) (by omega)),
                  if_pos (iff_of_true rfl hpar)]
              · -- destination Center, next parity odd, walk target d = Right
                have hdc : d = Peg.Right := by
                  rw [hdval, if_neg (by omega), hDval,
                    if_neg (fun hh => hpar (hh.mp hpm))]
                  decide
                rw [hdc, if_neg (fun hh => absurd (hh.mpr (by omega)) (by decide)),
                  if_neg (fun hh => hpar (hh.mp rfl))]
          | Right =>
              by_cases hpar : (N - mOf N p) % 2 = 1
              · -- destination Center, next parity even, walk target d = Center
                have hdc : d = Peg.Center := by
                  rw [hdval, if_pos (by omega), hDval,
                    if_neg (fun hh => absurd (hh.mpr hpar) (by rw [hpm]; decide))]
                rw [hdc, if_neg (fun hh => by
                    have := hh.mp rfl
                    omega),
                  if_neg (fun hh => absurd (hh.mpr hpar) (by decide))]
              · -- destination Right, next parity odd, walk target d = Center
                have hdc : d = Peg.Center := by
                  rw [hdval, if_neg (by omega), hDval,
                    if_pos (iff_of_false (by rw [hpm]; decide) hpar)]
                  decide
                rw [hdc, if_pos (iff_of_true rfl (by omega)),
                  if_pos (iff_of_false (by decide) hpar)]
  · -- the largest disk is not on the left peg: the destination is its own peg
    have hDN : destF N p = p N := destF_of_pN hN hNL
    have hkN : k ≠ N := by
      intro hkN
      apply hqd
      rw [hq, hd, hkN, tgtAt_self, hDN]
    have hfin : destF N p' = p' N := by
      apply destF_of_pN hN
      rw [hp'ne N (Ne.symm hkN)]
      exact hNL
    rw [hfin, hp'ne N (Ne.symm hkN), hDN]

/-! ## Unfolding the `do_auto` walk -/

theorem loop_skip {s : State} {t : Peg} {sz : Nat}
    (h : find_disk s (Disk.mk (sz + 1)) = t) :
    do_auto_loop s t (sz + 1) = do_auto_loop s t sz := by
  simp only [do_auto_loop]
  rw [h]
  simp

theorem loop_blocked {s : State} {t : Peg} {sz : Nat}
    (hne : find_disk s (Disk.mk (sz + 1)) ≠ t)
    (hnotop : (s.get_tower (find_disk s (Disk.mk (sz + 1)))).getLast? ≠
      some (Disk.mk (sz + 1))) :
    do_auto_loop s t (sz + 1) =
      do_auto_loop s (odd3 (find_disk s (Disk.mk (sz + 1))) t) sz := by
  simp only [do_auto_loop]
  rw [if_pos hne, if_neg hnotop, odd_one_out_eq _ _ hne]

theorem loop_failed {s s2 : State} {t : Peg} {sz : Nat} {e : HanoiError}
    (hne : find_disk s (Disk.mk (sz + 1)) ≠ t)
    (htop : (s.get_tower (find_disk s (Disk.mk (sz + 1)))).getLast? =
      some (Disk.mk (sz + 1)))
    (hdm : s.do_move { fromPeg := find_disk s (Disk.mk (sz + 1)), toPeg := t } =
      some (Except.error e, s2)) :
    do_auto_loop s t (sz + 1) =
      do_auto_loop s2 (odd3 (find_disk s (Disk.mk (sz + 1))) t) sz := by
  simp only [do_auto_loop]
  rw [if_pos hne, if_pos htop, hdm, odd_one_out_eq _ _ hne]

theorem loop_moved {s s2 : State} {t : Peg} {sz : Nat} {r : NextStep}
    (hne : find_disk s (Disk.mk (sz + 1)) ≠ t)
    (htop : (s.get_tower (find_disk s (Disk.mk (sz + 1)))).getLast? =
      some (Disk.mk (sz + 1)))
    (hdm : s.do_move { fromPeg := find_disk s (Disk.mk (sz + 1)), toPeg := t } =
      some (Except.ok r, s2)) :
    do_auto_loop s t (sz + 1) = some (Except.ok r, s2) := by
  simp only [do_auto_loop]
  rw [if_pos hne, if_pos htop, hdm]

theorem loop_exhaust : ∀ (sz : Nat) (s : State) (t : Peg),
    phi (pegOf s) t sz = 0 →
    do_auto_loop s t sz = some (Except.error HanoiError.AlreadyDone, s)
  | 0, s, t, _ => rfl
  | sz + 1, s, t, h => by
      unfold phi at h
      have hpos : 2 ^ sz > 0 := Nat.pos_pow_of_pos sz (by omega)
      have halign : pegOf s (sz + 1) = t := by
        by_contra hne
        rw [if_neg hne] at h
        omega
      have hrest : phi (pegOf s) (nextTgt (pegOf s (sz + 1)) t) sz = 0 := by
        rw [if_pos halign] at h
        simpa using h
      rw [halign] at hrest
      unfold nextTgt at hrest
      rw [if_pos rfl] at hrest
      rw [loop_skip halign]
      exact loop_exhaust sz s t hrest

theorem pegOf_def (s : State) (k : Nat) : pegOf s k = find_disk s (Disk.mk k) := rfl

theorem do_move_of_can_move_some {s : State} {mov : Move} {e : HanoiError}
    (h : s.can_move mov = some e) :
    s.do_move mov = some (Except.error e, s) := by
  unfold State.do_move
  simp only [h]

theorem can_move_none_of {N : Nat} {s : State} {q t : Peg} {k : Nat}
    (h : DiskInv N s) (hN : N ≤ 254) (hk1 : 1 ≤ k) (hk2 : k ≤ N)
    (hq : pegOf s k = q) (hqt : q ≠ t)
    (htop : s.peek_disk q = some (Disk.mk k))
    (hbelow : ∀ j, 1 ≤ j → j < k → pegOf s j ≠ t) :
    s.can_move { fromPeg := q, toPeg := t } = none := by
  rw [can_move_eq htop]
  apply if_pos
  cases hpt : s.peek_disk t with
  | none => simp; omega
  | some m =>
      simp only [Option.getD_some]
      have hmmem : m ∈ s.get_tower t := List.mem_of_getLast?_eq_some hpt
      have hb := diskInv_size_bounds h hmmem
      have hpm : pegOf s m.sz = t := pegOf_eq_of_mem h (by rw [← disk_eta]; exact hmmem)
      have hne : m.sz ≠ k := by
        intro he
        rw [he] at hpm
        exact hqt (by rw [← hq, hpm])
      rcases Nat.lt_or_ge m.sz k with hlt | hge
      · exact absurd hpm (hbelow m.sz hb.1 hlt)
      · omega

theorem can_move_some_of {N : Nat} {s : State} {q t : Peg} {k j : Nat}
    (h : DiskInv N s) (htop : s.peek_disk q = some (Disk.mk k))
    (hj : Disk.mk j ∈ s.get_tower t) (hjk : j < k) :
    ∃ e, s.can_move { fromPeg := q, toPeg := t } = some e := by
  rw [can_move_eq htop]
  rcases peek_some_of_mem hj with ⟨m, hm⟩
  rw [hm]
  have hle : m.sz ≤ j := by
    have := (diskInv_decreasing h t).getLast_le m hm (Disk.mk j) hj
    simpa using this
  rw [if_neg (by simp; omega)]
  exact ⟨_, rfl⟩

theorem phi_succ (p : Nat → Peg) (t : Peg) (k : Nat) :
    phi p t (k + 1) =
      (if p (k + 1) = t then 0 else 2 ^ k) + phi p (nextTgt (p (k + 1)) t) k := rfl

theorem loop_progress {N : Nat} (hN254 : N ≤ 254) :
    ∀ sz, sz ≤ N → ∀ (s : State) (t : Peg), DiskInv N s →
    phi (pegOf s) t sz ≠ 0 →
    ∃ k d s', 1 ≤ k ∧ k ≤ sz ∧ pegOf s k ≠ d ∧ d = tgtAt (pegOf s) t sz k ∧
      (∀ j, 1 ≤ j → j < k → pegOf s j = odd3 (pegOf s k) d) ∧
      do_auto_loop s t sz = some (Except.ok
        (if s'.done then NextStep.Win else NextStep.Continue), s') ∧
      DiskInv N s' ∧
      (∀ j, 1 ≤ j → j ≤ N → pegOf s' j = if j = k then d else pegOf s j) ∧
      phi (pegOf s') t sz + 1 = phi (pegOf s) t sz := by
  intro sz
  induction sz with
  | zero =>
      intro _ s t _ hphi
      exact absurd rfl hphi
  | succ sz ih =>
      intro hszN s t hinv hphi
      have hphi_eq : phi (pegOf s) t (sz + 1) =
          (if pegOf s (sz + 1) = t then 0 else 2 ^ sz) +
            phi (pegOf s) (nextTgt (pegOf s (sz + 1)) t) sz := rfl
      by_cases hqt : pegOf s (sz + 1) = t
      · -- the disk `sz+1` already sits on the target: skip it
        have hnt : nextTgt (pegOf s (sz + 1)) t = t := by
          unfold nextTgt; rw [if_pos hqt]
        have hphi' : phi (pegOf s) t sz ≠ 0 := by
          intro h0
          apply hphi
          rw [hphi_eq, if_pos hqt, hnt, h0]
        rcases ih (by omega) s t hinv hphi' with
          ⟨k, d, s', hk1, hk2, hkd, hdt, hsm, hloop, hinv', hdesc, hphi''⟩
        refine ⟨k, d, s', hk1, by omega, hkd, ?_, hsm, ?_, hinv', hdesc, ?_⟩
        · rw [tgtAt_step (pegOf s) t (by omega), hnt]
          exact hdt
        · rw [loop_skip hqt]
          exact hloop
        · have hd1 : pegOf s' (sz + 1) = pegOf s (sz + 1) := by
            rw [hdesc (sz + 1) (by omega) (by omega), if_neg (by omega)]
          have he1 : phi (pegOf s') t (sz + 1) = phi (pegOf s') t sz := by
            rw [phi_succ, hd1, if_pos hqt, hnt, Nat.zero_add]
          rw [he1, hphi_eq, if_pos hqt, hnt, Nat.zero_add]
          exact hphi''
      · -- the disk `sz+1` is not on the target
        have hna : nextTgt (pegOf s (sz + 1)) t = odd3 (pegOf s (sz + 1)) t := by
          unfold nextTgt; rw [if_neg hqt]
        have haq : odd3 (pegOf s (sz + 1)) t ≠ pegOf s (sz + 1) :=
          (odd3_ne _ t hqt).1
        have hat : odd3 (pegOf s (sz + 1)) t ≠ t :=
          (odd3_ne _ t hqt).2
        by_cases hall : ∀ j, 1 ≤ j → j ≤ sz → pegOf s j = odd3 (pegOf s (sz + 1)) t
        · -- every smaller disk is on the auxiliary peg: move disk `sz+1` now
          have htop : s.peek_disk (pegOf s (sz + 1)) = some (Disk.mk (sz + 1)) := by
            rw [top_iff hinv (by omega) (by omega) rfl]
            intro j hj1 hj2 hcon
            rw [hall j hj1 (by omega)] at hcon
            exact haq hcon
          have hcan : s.can_move { fromPeg := pegOf s (sz + 1), toPeg := t } = none := by
            apply can_move_none_of hinv hN254 (Nat.le_add_left 1 sz) hszN rfl hqt htop
            intro j hj1 hj2 hcon
            rw [hall j hj1 (by omega)] at hcon
            exact hat hcon
          rcases do_move_success hqt htop hcan with ⟨s', hdm, h1, h2, h3⟩
          have hkq : Disk.mk (sz + 1) ∈ s.get_tower (pegOf s (sz + 1)) :=
            List.mem_of_getLast?_eq_some htop
          have hinv' : DiskInv N s' :=
            diskInv_of_move hinv hqt htop
              (tower_gt_of_can_move hinv hqt hkq hcan htop) h1 h2 h3
          have hdesc := pegOf_of_move hinv hinv' hqt htop h1 h2 h3
          refine ⟨sz + 1, t, s', by omega, le_refl _, hqt, (tgtAt_self _ _ _).symm,
            fun j hj1 hj2 => hall j hj1 (by omega), ?_, hinv', hdesc, ?_⟩
          · exact loop_moved hqt htop hdm
          · have hp0 : phi (pegOf s) t (sz + 1) = 2 ^ sz := by
              rw [hphi_eq, if_neg hqt, hna]
              rw [phi_zero_iff.mpr hall]
              omega
            have hs'1 : pegOf s' (sz + 1) = t := by
              rw [hdesc (sz + 1) (by omega) (by omega), if_pos rfl]
            have hp1 : phi (pegOf s') t (sz + 1) = phi (pegOf s') t sz := by
              have hnt2 : nextTgt t t = t := by
                unfold nextTgt
                rw [if_pos rfl]
              rw [phi_succ, hs'1, if_pos rfl, hnt2, Nat.zero_add]
            have hp2 : phi (pegOf s') t sz = 2 ^ sz - 1 := by
              apply phi_all_on (a := odd3 (pegOf s (sz + 1)) t) _ hat
              intro j hj1 hj2
              rw [hdesc j hj1 (by omega), if_neg (by omega)]
              exact hall j hj1 hj2
            have hpow : 2 ^ sz > 0 := Nat.pos_pow_of_pos sz (by omega)
            rw [hp0, hp1, hp2]
            omega
        · -- some smaller disk is off the auxiliary peg: the walk retargets
          have hphiA : phi (pegOf s) (odd3 (pegOf s (sz + 1)) t) sz ≠ 0 := by
            intro h0
            exact hall (phi_zero_iff.mp h0)
          have hloopstep : do_auto_loop s t (sz + 1) =
              do_auto_loop s (odd3 (pegOf s (sz + 1)) t) sz := by
            by_cases htop : (s.get_tower (pegOf s (sz + 1))).getLast? =
                some (Disk.mk (sz + 1))
            · -- the disk is topmost but the move is illegal
              push_neg at hall
              rcases hall with ⟨j, hj1, hj2, hja⟩
              have hjq : pegOf s j ≠ pegOf s (sz + 1) := by
                have := (top_iff hinv (k := sz + 1) (by omega) (by omega) rfl).mp htop
                exact this j hj1 (by omega)
              have hjt : pegOf s j = t := by
                rcases peg_cases (pegOf s j) (pegOf s (sz + 1)) t hqt with h | h | h
                · exact absurd h hjq
                · exact h
                · exact absurd h hja
              have hjmem : Disk.mk j ∈ s.get_tower t := by
                rw [← hjt]
                exact pegOf_mem hinv hj1 (by omega)
              rcases can_move_some_of hinv (q := pegOf s (sz + 1)) htop hjmem
                (by omega) with ⟨e, hcm⟩
              exact loop_failed hqt htop (do_move_of_can_move_some hcm)
            · exact loop_blocked hqt htop
          rcases ih (by omega) s (odd3 (pegOf s (sz + 1)) t) hinv hphiA with
            ⟨k, d, s', hk1, hk2, hkd, hdt, hsm, hloop, hinv', hdesc, hphi''⟩
          refine ⟨k, d, s', hk1, by omega, hkd, ?_, hsm, ?_, hinv', hdesc, ?_⟩
          · rw [tgtAt_step (pegOf s) t (by omega), hna]
            exact hdt
          · rw [hloopstep]
            exact hloop
          · have hd1 : pegOf s' (sz + 1) = pegOf s (sz + 1) := by
              rw [hdesc (sz + 1) (by omega) (by omega), if_neg (by omega)]
            have he1 : phi (pegOf s') t (sz + 1) =
                2 ^ sz + phi (pegOf s') (odd3 (pegOf s (sz + 1)) t) sz := by
              rw [phi_succ, hd1, if_neg hqt, hna]
            rw [he1, hphi_eq, if_neg hqt, hna]
            omega
  

/-! ## Relating `dest_peg` and `do_auto` to the abstract solver -/

theorem firstSize_le_mOf {N : Nat} {s : State} (h : DiskInv N s) (q : Peg)
    (hq : q ≠ Peg.Left) : firstSize (s.get_tower q) ≤ mOf N (pegOf s) := by
  by_cases hq0 : s.get_tower q = []
  · rw [hq0, firstSize_of_nil (by simp)]; omega
  · have hmem := (firstSize_eq_max h q).2.2 hq0
    have hb := diskInv_size_bounds h hmem
    apply mOf_ub N (pegOf s) hb.1 hb.2
    rw [pegOf_eq_of_mem h hmem]
    exact hq

theorem max_firstSize_eq_mOf {N : Nat} {s : State} (h : DiskInv N s) :
    max (firstSize s.center) (firstSize s.right) = mOf N (pegOf s) := by
  apply Nat.le_antisymm
  · have h1 := firstSize_le_mOf h Peg.Center (by decide)
    have h2 := firstSize_le_mOf h Peg.Right (by decide)
    simp only [State.get_tower] at h1 h2
    omega
  · rcases mOf_mem N (pegOf s) with h0 | ⟨h1, h2, h3⟩
    · omega
    · have hmem := pegOf_mem h h1 h2
      have hle := (firstSize_eq_max h (pegOf s (mOf N (pegOf s)))).2.1 _ hmem
      simp only at hle
      cases hpm : pegOf s (mOf N (pegOf s)) with
      | Left => exact absurd hpm h3
      | Center =>
          rw [hpm] at hle
          simp only [State.get_tower] at hle
          omega
      | Right =>
          rw [hpm] at hle
          simp only [State.get_tower] at hle
          omega

theorem center_iff_mOf {N : Nat} {s : State} (h : DiskInv N s)
    (h0 : mOf N (pegOf s) ≠ 0) :
    (firstSize s.center = mOf N (pegOf s)) ↔
      pegOf s (mOf N (pegOf s)) = Peg.Center := by
  have hmm : 1 ≤ mOf N (pegOf s) ∧ mOf N (pegOf s) ≤ N ∧
      pegOf s (mOf N (pegOf s)) ≠ Peg.Left := by
    rcases mOf_mem N (pegOf s) with hz | h1
    · exact absurd hz h0
    · exact h1
  constructor
  · intro hfs
    have hne : s.center ≠ [] := by
      intro he
      rw [he] at hfs
      rw [firstSize_of_nil (by simp)] at hfs
      omega
    have hmem := (firstSize_eq_max h Peg.Center).2.2 hne
    simp only [State.get_tower] at hmem
    rw [hfs] at hmem
    exact pegOf_eq_of_mem h (p := Peg.Center) hmem
  · intro hpm
    have hmem : Disk.mk (mOf N (pegOf s)) ∈ s.get_tower Peg.Center := by
      rw [← hpm]
      exact pegOf_mem h hmm.1 hmm.2.1
    have hge := (firstSize_eq_max h Peg.Center).2.1 _ hmem
    simp only at hge
    have hle := firstSize_le_mOf h Peg.Center (by decide)
    simp only [State.get_tower] at hge hle
    omega

theorem dest_of_inv {N : Nat} {s : State} (h : DiskInv N s) (hN1 : 1 ≤ N) :
    s.dest_peg = destF N (pegOf s) := by
  simp only [State.dest_peg, destF]
  rw [largest_of_inv h hN1, max_firstSize_eq_mOf h]
  by_cases h0 : mOf N (pegOf s) = 0
  · rw [if_pos h0, if_pos h0]
  · rw [if_neg h0, if_neg h0]
    exact if_congr (iff_congr (center_iff_mOf h h0) Iff.rfl) rfl rfl

theorem do_auto_eq_loop {N : Nat} {s : State} (h : DiskInv N s) (hN1 : 1 ≤ N)
    (hN : N ≤ 254) : s.do_auto = do_auto_loop s s.dest_peg N := by
  unfold State.do_auto
  rw [largest_of_inv h hN1]
  congr 1
  omega

theorem auto_done {N : Nat} {s : State} (h : DiskInv N s) (hN1 : 1 ≤ N)
    (hN : N ≤ 254) (hd : s.done = true) :
    s.do_auto = some (Except.error HanoiError.AlreadyDone, s) := by
  rcases done_all_on h hd with ⟨P, hPL, hall⟩
  have hdest : destF N (pegOf s) = P := by
    rw [destF_of_pN hN1 (by rw [hall N hN1 (le_refl N)]; exact hPL)]
    exact hall N hN1 (le_refl N)
  have hphi : phi (pegOf s) (destF N (pegOf s)) N = 0 := by
    apply phi_zero_iff.mpr
    intro j hj1 hj2
    rw [hdest]
    exact hall j hj1 hj2
  rw [do_auto_eq_loop h hN1 hN, dest_of_inv h hN1]
  exact loop_exhaust N s _ hphi

theorem auto_step {N : Nat} {s : State} (h : DiskInv N s) (hN1 : 1 ≤ N)
    (hN : N ≤ 254) (hd : s.done = false) :
    ∃ s', s.do_auto = some (Except.ok
        (if s'.done then NextStep.Win else NextStep.Continue), s') ∧
      DiskInv N s' ∧
      phi (pegOf s') (destF N (pegOf s)) N + 1 =
        phi (pegOf s) (destF N (pegOf s)) N ∧
      destF N (pegOf s') = destF N (pegOf s) := by
  have hphi : phi (pegOf s) (destF N (pegOf s)) N ≠ 0 := by
    intro h0
    have hall := phi_zero_iff.mp h0
    have := all_on_done h (destF_ne_left N (pegOf s)) hall
    rw [hd] at this
    exact Bool.noConfusion this
  rcases loop_progress hN N (le_refl N) s (destF N (pegOf s)) h hphi with
    ⟨k, d, s', hk1, hk2, hkd, hdt, hsm, hloop, hinv', hdesc, hphi'⟩
  refine ⟨s', ?_, hinv', hphi', ?_⟩
  · rw [do_auto_eq_loop h hN1 hN, dest_of_inv h hN1]
    exact hloop
  · have h1 : destF N (pegOf s') =
        destF N (fun j => if j = k then d else pegOf s j) :=
      destF_congr (fun j hj1 hj2 => hdesc j hj1 hj2)
    rw [h1]
    exact destF_update hN1 hk1 (by omega) rfl hdt hkd hsm

theorem doAutoD_of_eq {s : State} {v : Except HanoiError NextStep × State}
    (h : s.do_auto = some v) : doAutoD s = v := by
  unfold doAutoD
  rw [h]
  rfl

/-! ## The initial state -/

theorem pairwise_lt_range1 : ∀ (n s : Nat), (List.range' s n).Pairwise (· < ·)
  | 0, s => by simp
  | n + 1, s => by
      rw [List.range'_succ]
      refine List.Pairwise.cons ?_ (pairwise_lt_range1 n (s + 1))
      intro b hb
      rcases List.mem_range'.mp hb with ⟨i, hi, rfl⟩
      omega

theorem new_inv (N : Nat) : DiskInv ((N + 1) % 256 - 1) (State.new N) := by
  refine ⟨?_, ?_, ?_, ?_⟩
  · rw [decreasing_iff_pairwise]
    unfold State.new
    simp only [List.pairwise_reverse, List.pairwise_map]
    exact (pairwise_lt_range1 _ _).imp (fun hab => hab)
  · exact List.chain'_nil
  · exact List.chain'_nil
  · unfold diskMultiset State.new
    simp only [List.append_nil, List.map_reverse, List.map_map]
    rw [← Multiset.coe_reverse]
    congr 1
    have : (Disk.sz ∘ Disk.mk) = id := rfl
    rw [this, List.map_id]
    exact List.reverse_reverse _

theorem new_inv' {N : Nat} (hN : N ≤ 254) : DiskInv N (State.new N) := by
  have := new_inv N
  have he : (N + 1) % 256 - 1 = N := by omega
  rw [he] at this
  exact this

/-! ## Iterating the auto-solver -/

theorem fix_of_already {s : State}
    (hDA : s.do_auto = some (Except.error HanoiError.AlreadyDone, s)) :
    ∀ i, (fun t => (doAutoD t).2)^[i] s = s
  | 0 => rfl
  | i + 1 => by
      rw [Function.iterate_succ_apply]
      have hstep : (doAutoD s).2 = s := by rw [doAutoD_of_eq hDA]
      simp only [hstep]
      exact fix_of_already hDA i

theorem solve_done {s : State} (hd : s.done = true)
    (hDA : s.do_auto = some (Except.error HanoiError.AlreadyDone, s)) :
    ∃ K, ((fun t => (doAutoD t).2)^[K] s).done = true ∧
      (∀ i, i < K → ∃ r : NextStep,
        (doAutoD ((fun t => (doAutoD t).2)^[i] s)).1 = Except.ok r) ∧
      (∀ i, K ≤ i →
        (doAutoD ((fun t => (doAutoD t).2)^[i] s)).1 =
          Except.error HanoiError.AlreadyDone ∧
        (fun t => (doAutoD t).2)^[i + 1] s = (fun t => (doAutoD t).2)^[i] s) := by
  refine ⟨0, hd, fun i hi => absurd hi (by omega), fun i _ => ?_⟩
  rw [fix_of_already hDA i, fix_of_already hDA (i + 1)]
  constructor
  · rw [doAutoD_of_eq hDA]
  · rfl

theorem solve_from {N : Nat} (hN1 : 1 ≤ N) (hN : N ≤ 254) :
    ∀ (v : Nat) (s : State), DiskInv N s →
    phi (pegOf s) (destF N (pegOf s)) N ≤ v →
    ∃ K, ((fun t => (doAutoD t).2)^[K] s).done = true ∧
      (∀ i, i < K → ∃ r : NextStep,
        (doAutoD ((fun t => (doAutoD t).2)^[i] s)).1 = Except.ok r) ∧
      (∀ i, K ≤ i →
        (doAutoD ((fun t => (doAutoD t).2)^[i] s)).1 =
          Except.error HanoiError.AlreadyDone ∧
        (fun t => (doAutoD t).2)^[i + 1] s = (fun t => (doAutoD t).2)^[i] s) := by
  intro v
  induction v with
  | zero =>
      intro s hinv hle
      by_cases hd : s.done = true
      · exact solve_done hd (auto_done hinv hN1 hN hd)
      · exfalso
        have hphi0 : phi (pegOf s) (destF N (pegOf s)) N = 0 := by omega
        have hall := phi_zero_iff.mp hphi0
        have := all_on_done hinv (destF_ne_left N (pegOf s)) hall
        exact hd this
  | succ v ih =>
      intro s hinv hle
      by_cases hd : s.done = true
      · exact solve_done hd (auto_done hinv hN1 hN hd)
      · have hdf : s.done = false := by
          cases hdd : s.done
          · rfl
          · exact absurd hdd hd
        rcases auto_step hinv hN1 hN hdf with ⟨s', hDA, hinv', hdec, hdinv⟩
        have hstep : (doAutoD s).2 = s' := by
          rw [doAutoD_of_eq hDA]
        have hphis' : phi (pegOf s') (destF N (pegOf s')) N ≤ v := by
          rw [hdinv]
          omega
        rcases ih s' hinv' hphis' with ⟨K', hK1, hK2, hK3⟩
        refine ⟨K' + 1, ?_, ?_, ?_⟩
        · rw [Function.iterate_succ_apply, hstep]
          exact hK1
        · intro i hi
          cases i with
          | zero =>
              refine ⟨if s'.done then NextStep.Win else NextStep.Continue, ?_⟩
              simp only [Function.iterate_zero_apply]
              rw [doAutoD_of_eq hDA]
          | succ j =>
              rw [Function.iterate_succ_apply, hstep]
              exact hK2 j (by omega)
        · intro i hi
          cases i with
          | zero => omega
          | succ j =>
              rw [Function.iterate_succ_apply, hstep,
                Function.iterate_succ_apply, hstep]
              exact hK3 j (by omega)

/-! ## Invariant preservation along any run -/

theorem loop_none {s : State} {t : Peg} {sz : Nat}
    (hne : find_disk s (Disk.mk (sz + 1)) ≠ t)
    (htop : (s.get_tower (find_disk s (Disk.mk (sz + 1)))).getLast? =
      some (Disk.mk (sz + 1)))
    (hdm : s.do_move { fromPeg := find_disk s (Disk.mk (sz + 1)), toPeg := t } = none) :
    do_auto_loop s t (sz + 1) = none := by
  simp only [do_auto_loop]
  rw [if_pos hne, if_pos htop, hdm]

theorem do_auto_loop_inv {N : Nat} : ∀ (sz : Nat) (s : State) (t : Peg)
    (r : Except HanoiError NextStep) (s' : State), DiskInv N s →
    do_auto_loop s t sz = some (r, s') → DiskInv N s'
  | 0, s, t, r, s', hinv, heq => by
      simp only [do_auto_loop] at heq
      have h2 : s = s' := congrArg Prod.snd (Option.some.inj heq)
      rw [← h2]
      exact hinv
  | sz + 1, s, t, r, s', hinv, heq => by
      by_cases hpt : find_disk s (Disk.mk (sz + 1)) = t
      · rw [loop_skip hpt] at heq
        exact do_auto_loop_inv sz s t r s' hinv heq
      · by_cases htop : (s.get_tower (find_disk s (Disk.mk (sz + 1)))).getLast? =
            some (Disk.mk (sz + 1))
        · cases hdm : s.do_move
              { fromPeg := find_disk s (Disk.mk (sz + 1)), toPeg := t } with
          | none =>
              rw [loop_none hpt htop hdm] at heq
              exact Option.noConfusion heq
          | some rs =>
              rcases rs with ⟨rr, s2⟩
              cases rr with
              | ok r0 =>
                  rw [loop_moved hpt htop hdm] at heq
                  have h2 : s2 = s' := congrArg Prod.snd (Option.some.inj heq)
                  rw [← h2]
                  exact do_move_inv hinv hdm
              | error e =>
                  rw [loop_failed hpt htop hdm] at heq
                  exact do_auto_loop_inv sz s2 _ r s' (do_move_inv hinv hdm) heq
        · rw [loop_blocked hpt htop] at heq
          exact do_auto_loop_inv sz s _ r s' hinv heq

theorem do_auto_inv {N : Nat} {s s' : State} {r : Except HanoiError NextStep}
    (hinv : DiskInv N s) (h : s.do_auto = some (r, s')) : DiskInv N s' := by
  unfold State.do_auto at h
  exact do_auto_loop_inv _ s _ r s' hinv h

theorem reachable_inv_aux {N : Nat} (hN : N ≤ 254) :
    ∀ s, Reachable N s → DiskInv N s := by
  intro s hr
  induction hr with
  | init => exact new_inv' hN
  | step_move s0 mov r s1 _ hdm ih => exact do_move_inv ih hdm
  | step_auto s0 r s1 _ hda ih => exact do_auto_inv ih hda

theorem tower_inv (n : Nat) :
    DiskInv n (State.mk (((List.range' 1 n).map Disk.mk).reverse) [] []) := by
  refine ⟨?_, ?_, ?_, ?_⟩
  · rw [decreasing_iff_pairwise]
    simp only [List.pairwise_reverse, List.pairwise_map]
    exact (pairwise_lt_range1 _ _).imp (fun hab => hab)
  · exact List.chain'_nil
  · exact List.chain'_nil
  · unfold diskMultiset
    simp only [List.append_nil, List.map_reverse, List.map_map]
    rw [← Multiset.coe_reverse]
    congr 1
    have : (Disk.sz ∘ Disk.mk) = id := rfl
    rw [this, List.map_id]
    exact List.reverse_reverse _

theorem already_done_iff_aux {N : Nat} {s : State} (hN : N ≤ 254)
    (hinv : DiskInv N s) :
    ((∃ s', s.do_auto = some (Except.error HanoiError.AlreadyDone, s')) ↔
      s.done = true) ∧
    (∀ s', s.do_auto = some (Except.error HanoiError.AlreadyDone, s') → s' = s) := by
  by_cases hN0 : N = 0
  · subst hN0
    have hse := diskInv_zero hinv
    subst hse
    refine ⟨⟨fun _ => rfl, fun _ => ⟨_, rfl⟩⟩, fun s' h => ?_⟩
    have := Option.some.inj h
    exact (congrArg Prod.snd this).symm
  · have hN1 : 1 ≤ N := by omega
    by_cases hd : s.done = true
    · have hDA := auto_done hinv hN1 hN hd
      refine ⟨⟨fun _ => hd, fun _ => ⟨s, hDA⟩⟩, fun s' h => ?_⟩
      rw [hDA] at h
      exact (congrArg Prod.snd (Option.some.inj h)).symm
    · have hdf : s.done = false := by
        cases hdd : s.done
        · rfl
        · exact absurd hdd hd
      rcases auto_step hinv hN1 hN hdf with ⟨s', hDA, _, _, _⟩
      have hne : ∀ s'', ¬ s.do_auto =
          some (Except.error HanoiError.AlreadyDone, s'') := by
        intro s'' h
        rw [hDA] at h
        have := congrArg Prod.fst (Option.some.inj h)
        exact Except.noConfusion this
      refine ⟨⟨fun he => ?_, fun he => absurd he hd⟩, fun s'' h => absurd h (hne s'')⟩
      rcases he with ⟨s'', h⟩
      exact absurd h (hne s'')

/-! ## Claim theorems -/

/-- C1 counterexample: at N = 255 the claim fails: `State.new 255` is reachable
(it is the initial state), but the `u8` computation `disks + 1` wraps, so the
state is empty and does not carry the multiset `{1, ..., 255}`. -/
theorem c1_reachable_invariant_counterexample :
    Reachable 255 (State.new 255) ∧ ¬ DiskInv 255 (State.new 255) := by
  refine ⟨Reachable.init, ?_⟩
  intro h
  have hmul := h.2.2.2
  have hc := congrArg Multiset.card hmul
  simp [diskMultiset, State.new] at hc

/-- C1 (amended): for every disk count N ≤ 254 (the constructible puzzles, see
C10), every state reachable from the initial state by any sequence of `do_move`
and `do_auto` calls has all three pegs strictly decreasing from bottom to top
and carries exactly the disks `{1, ..., N}`, each once. -/
theorem c1_reachable_invariant (N : Nat) (hN : N ≤ 254) (s : State)
    (h : Reachable N s) :
    Decreasing s.left ∧ Decreasing s.center ∧ Decreasing s.right ∧
      diskMultiset s = (List.range' 1 N : Multiset Nat) :=
  reachable_inv_aux hN s h

theorem c1_reachable_invariant_witness :
    Decreasing (State.new 3).left ∧ Decreasing (State.new 3).center ∧
      Decreasing (State.new 3).right ∧
      diskMultiset (State.new 3) = (List.range' 1 3 : Multiset Nat) :=
  c1_reachable_invariant 3 (by decide) (State.new 3) Reachable.init

/-- C2: for every N ≥ 1, repeatedly calling `do_auto` from `State.new N`
reaches a solved state after finitely many calls; every call before that
returns `Ok` (`Continue` or `Win`), and from the solved point on every call
returns `AlreadyDone` and leaves the state unchanged — in particular no call
ever returns `UnstableStack` or `EmptyFrom`. -/
theorem c2_auto_solve_terminates (N : Nat) (hN1 : 1 ≤ N) :
    ∃ K, (runAuto N K).done = true ∧
      (∀ i, i < K → ∃ r : NextStep, (doAutoD (runAuto N i)).1 = Except.ok r) ∧
      (∀ i, K ≤ i →
        (doAutoD (runAuto N i)).1 = Except.error HanoiError.AlreadyDone ∧
        runAuto N (i + 1) = runAuto N i) := by
  have hinv := new_inv N
  by_cases h0 : (N + 1) % 256 - 1 = 0
  · have hse : State.new N = State.mk [] [] [] := by
      unfold State.new
      rw [h0]
      rfl
    have hd : (State.new N).done = true := by rw [hse]; rfl
    have hDA : (State.new N).do_auto =
        some (Except.error HanoiError.AlreadyDone, State.new N) := by
      rw [hse]
      rfl
    unfold runAuto
    exact solve_done hd hDA
  · have hsz1 : 1 ≤ (N + 1) % 256 - 1 := by omega
    have h254 : (N + 1) % 256 - 1 ≤ 254 := by omega
    unfold runAuto
    exact solve_from hsz1 h254 _ (State.new N) hinv (le_refl _)

theorem c2_auto_solve_terminates_witness :
    ∃ K, (runAuto 2 K).done = true ∧
      (∀ i, i < K → ∃ r : NextStep, (doAutoD (runAuto 2 i)).1 = Except.ok r) ∧
      (∀ i, K ≤ i →
        (doAutoD (runAuto 2 i)).1 = Except.error HanoiError.AlreadyDone ∧
        runAuto 2 (i + 1) = runAuto 2 i) :=
  c2_auto_solve_terminates 2 (by decide)

/-- C3: the N = 3 scenario.  The first three moves behave exactly as the claim
says, but the final Left→Center attempt (disk 3 onto disk 1) returns
`UnstableStack (Center, Disk 1)` — `can_move` reports the *destination's top
disk* — whereas the claim (and the doc comment on `HanoiError`, which says the
carried `Disk` is the one that cannot go on the peg) expects
`UnstableStack (Center, Disk 3)`.  The state is left unchanged. -/
theorem c3_scenario_n3 :
    (State.new 3).do_move { fromPeg := Peg.Left, toPeg := Peg.Right } =
      some (Except.ok NextStep.Continue,
        State.mk [Disk.mk 3, Disk.mk 2] [] [Disk.mk 1]) ∧
    (State.mk [Disk.mk 3, Disk.mk 2] [] [Disk.mk 1]).do_move
        { fromPeg := Peg.Left, toPeg := Peg.Center } =
      some (Except.ok NextStep.Continue,
        State.mk [Disk.mk 3] [Disk.mk 2] [Disk.mk 1]) ∧
    (State.mk [Disk.mk 3] [Disk.mk 2] [Disk.mk 1]).do_move
        { fromPeg := Peg.Right, toPeg := Peg.Center } =
      some (Except.ok NextStep.Continue,
        State.mk [Disk.mk 3] [Disk.mk 2, Disk.mk 1] []) ∧
    (State.mk [Disk.mk 3] [Disk.mk 2, Disk.mk 1] []).do_move
        { fromPeg := Peg.Left, toPeg := Peg.Center } =
      some (Except.error (HanoiError.UnstableStack Peg.Center (Disk.mk 1)),
        State.mk [Disk.mk 3] [Disk.mk 2, Disk.mk 1] []) := by
  refine ⟨rfl, rfl, rfl, rfl⟩

/-- C4: under the disk-partition invariant with N ≥ 1 disks, `done` is true
exactly when the start peg (Left) is empty and one of the other two pegs holds
all N disks (`specSolved`, written from the spec's words). -/
theorem c4_done_iff_specSolved (N : Nat) (s : State) (hN : 1 ≤ N)
    (hinv : DiskInv N s) : s.done = true ↔ specSolved N s := by
  have hmul := hinv.2.2.2
  rw [diskMultiset_towers] at hmul
  unfold specSolved
  constructor
  · intro hd
    rw [done_iff] at hd
    rcases hd with ⟨hl, hrc⟩
    refine ⟨hl, ?_⟩
    rcases hrc with hr | hc
    · left
      rw [hl, hr] at hmul
      simpa using hmul
    · right
      rw [hl, hc] at hmul
      simpa using hmul
  · rintro ⟨hl, hor⟩
    rw [done_iff]
    refine ⟨hl, ?_⟩
    rw [hl] at hmul
    rcases hor with hcen | hrig
    · left
      rw [hcen] at hmul
      simp only [List.map_nil, Multiset.coe_nil, zero_add] at hmul
      have hz : ((s.right.map Disk.sz : List Nat) : Multiset Nat) = 0 := by
        have := add_right_eq_self.mp hmul
        exact this
      rw [Multiset.coe_eq_zero, List.map_eq_nil_iff] at hz
      exact hz
    · right
      rw [hrig] at hmul
      simp only [List.map_nil, Multiset.coe_nil, zero_add] at hmul
      have hz : ((s.center.map Disk.sz : List Nat) : Multiset Nat) = 0 := by
        have h2 : ((s.center.map Disk.sz : List Nat) : Multiset Nat) +
            (List.range' 1 N : Multiset Nat) = (List.range' 1 N : Multiset Nat) := hmul
        have := add_left_eq_self.mp h2
        exact this
      rw [Multiset.coe_eq_zero, List.map_eq_nil_iff] at hz
      exact hz

theorem c4_done_iff_specSolved_witness :
    (State.mk [] [Disk.mk 1] []).done = true ↔
      specSolved 1 (State.mk [] [Disk.mk 1] []) :=
  c4_done_iff_specSolved 1 (State.mk [] [Disk.mk 1] []) (by decide)
    ⟨List.chain'_nil, List.chain'_singleton _, List.chain'_nil, rfl⟩

/-- C5: whenever `do_move` returns an error the state is unchanged, and a move
from an empty source peg returns `EmptyFrom(source)` and changes nothing. -/
theorem c5_failed_move_unchanged (s : State) (mov : Move) :
    (∀ e s', s.do_move mov = some (Except.error e, s') → s' = s) ∧
    (s.peek_disk mov.fromPeg = none →
      s.do_move mov = some (Except.error (HanoiError.EmptyFrom mov.fromPeg), s)) :=
  ⟨fun _ _ h => do_move_error h, fun h => do_move_empty h⟩

theorem c5_failed_move_unchanged_witness :
    (State.mk [] [] []).do_move { fromPeg := Peg.Left, toPeg := Peg.Right } =
      some (Except.error (HanoiError.EmptyFrom Peg.Left), State.mk [] [] []) :=
  (c5_failed_move_unchanged (State.mk [] [] [])
    { fromPeg := Peg.Left, toPeg := Peg.Right }).2 rfl

/-- C6 counterexample: pushing a disk whose size *equals* the top disk's size
succeeds (`push_disk` tests `disk_size <= top_size`), while the claim says it
may succeed only when the top disk is strictly larger. -/
theorem c6_push_equal_counterexample :
    (State.mk [Disk.mk 2] [] []).peek_disk Peg.Left = some (Disk.mk 2) ∧
    (State.mk [Disk.mk 2] [] []).push_disk Peg.Left (Disk.mk 2) =
      Except.ok (State.mk [Disk.mk 2, Disk.mk 2] [] []) ∧
    (State.mk [Disk.mk 2] [] []).push_disk Peg.Left (Disk.mk 2) ≠
      Except.error (HanoiError.UnstableStack Peg.Left (Disk.mk 2)) :=
  ⟨rfl, rfl, by decide⟩

/-- C6 (amended): for any u8-sized disk (size ≤ 255), `push_disk` succeeds and
places the disk on top exactly when the peg is empty or its top disk is larger
than *or equal to* the pushed disk; otherwise it fails with
`UnstableStack (peg, disk)` and the state is unchanged (the error carries no
new state). -/
theorem c6_push_disk_spec (s : State) (p : Peg) (d : Disk) (hd : d.sz ≤ 255) :
    ((s.peek_disk p = none ∨ ∃ top, s.peek_disk p = some top ∧ d.sz ≤ top.sz) →
      s.push_disk p d = Except.ok (s.set_tower p (s.get_tower p ++ [d]))) ∧
    ((∀ top, s.peek_disk p = some top → top.sz < d.sz) → s.peek_disk p ≠ none →
      s.push_disk p d = Except.error (HanoiError.UnstableStack p d)) := by
  constructor
  · intro hcond
    apply push_disk_ok
    rcases hcond with hnone | ⟨top, htop, hle⟩
    · rw [hnone]
      simpa using hd
    · rw [htop]
      simpa using hle
  · intro hlt hne
    apply push_disk_error
    cases hpt : s.peek_disk p with
    | none => exact absurd hpt hne
    | some top =>
        have := hlt top hpt
        simp only [Option.getD_some]
        omega

theorem c6_push_disk_spec_witness :
    (State.mk [Disk.mk 2] [] []).push_disk Peg.Left (Disk.mk 1) =
      Except.ok ((State.mk [Disk.mk 2] [] []).set_tower Peg.Left
        ((State.mk [Disk.mk 2] [] []).get_tower Peg.Left ++ [Disk.mk 1])) :=
  (c6_push_disk_spec (State.mk [Disk.mk 2] [] []) Peg.Left (Disk.mk 1)
    (by decide)).1 (Or.inr ⟨Disk.mk 2, rfl, by decide⟩)

set_option maxRecDepth 4000 in
/-- C7 counterexample: a legal 255-disk configuration (which `State::new`
itself can never produce, see C10) defeats the claim: `do_auto` computes
`largest = 255`, the loop bound `largest + 1` wraps to `0` in `u8`, the walk
runs zero iterations, and `AlreadyDone` is returned although the puzzle is not
solved. -/
theorem c7_already_done_255_counterexample :
    DiskInv 255
      (State.mk (((List.range' 1 255).map Disk.mk).reverse) [] []) ∧
    (State.mk (((List.range' 1 255).map Disk.mk).reverse) [] []).done = false ∧
    (State.mk (((List.range' 1 255).map Disk.mk).reverse) [] []).do_auto =
      some (Except.error HanoiError.AlreadyDone,
        State.mk (((List.range' 1 255).map Disk.mk).reverse) [] []) :=
  ⟨tower_inv 255, by decide, by decide⟩

/-- C7 (amended): for every state satisfying the disk-partition invariant for
some N ≤ 254, `do_auto` returns `AlreadyDone` exactly when the state is
already solved, and when it does the state is unchanged. -/
theorem c7_already_done_iff (N : Nat) (s : State) (hN : N ≤ 254)
    (hinv : DiskInv N s) :
    ((∃ s', s.do_auto = some (Except.error HanoiError.AlreadyDone, s')) ↔
      s.done = true) ∧
    (∀ s', s.do_auto = some (Except.error HanoiError.AlreadyDone, s') → s' = s) :=
  already_done_iff_aux hN hinv

theorem c7_already_done_iff_witness :
    ∃ s', (State.mk [] [Disk.mk 1] []).do_auto =
      some (Except.error HanoiError.AlreadyDone, s') :=
  (c7_already_done_iff 1 (State.mk [] [Disk.mk 1] []) (by decide)
    ⟨List.chain'_nil, List.chain'_singleton _, List.chain'_nil, rfl⟩).1.mpr rfl

set_option maxRecDepth 4000 in
/-- C8 counterexample: `State::new 255` does not build the 255-disk tower the
claim promises — the `u8` computation `disks + 1` wraps and the start peg
comes out empty. -/
theorem c8_new_255_counterexample :
    (State.new 255).left = [] ∧
    (State.new 255).left ≠ ((List.range' 1 255).map Disk.mk).reverse :=
  ⟨rfl, by decide⟩

/-- C8 (amended): for every n ≤ 254, `State.new n` builds exactly the disks
`1..n` on the start peg (Left), largest at the bottom and strictly decreasing
upward, with the other two pegs empty.  The constructor itself never fails:
`n = 0` yields the empty (degenerate) state, which `main` rejects before
construction, and at `n = 255` the 8-bit computation wraps instead (see
C10). -/
theorem c8_new_spec (n : Nat) (hn : n ≤ 254) :
    State.new n = State.mk (((List.range' 1 n).map Disk.mk).reverse) [] [] ∧
    Decreasing (State.new n).left ∧
    (State.new n).center = [] ∧ (State.new n).right = [] ∧
    diskMultiset (State.new n) = (List.range' 1 n : Multiset Nat) := by
  have hinv := new_inv' hn
  refine ⟨?_, hinv.1, rfl, rfl, hinv.2.2.2⟩
  unfold State.new
  have he : (n + 1) % 256 - 1 = n := by omega
  rw [he]

theorem c8_new_spec_witness :
    State.new 3 = State.mk (((List.range' 1 3).map Disk.mk).reverse) [] [] ∧
    Decreasing (State.new 3).left ∧
    (State.new 3).center = [] ∧ (State.new 3).right = [] ∧
    diskMultiset (State.new 3) = (List.range' 1 3 : Multiset Nat) :=
  c8_new_spec 3 (by decide)

/-- C9 counterexample: on a state whose peg violates the stacking invariant
(bottom 1, top 2), a self-move panics — `can_move` passes (the top is moved
onto itself, `2 ≤ 2`), but after popping, `push_disk` sees top disk 1 and
fails, so the `assert_eq!` in `do_move` fires (modelled as `none`) — instead
of succeeding as the claim states. -/
theorem c9_self_move_panic_counterexample :
    (State.mk [Disk.mk 1, Disk.mk 2] [] []).get_tower Peg.Left ≠ [] ∧
    (State.mk [Disk.mk 1, Disk.mk 2] [] []).do_move
      { fromPeg := Peg.Left, toPeg := Peg.Left } = none :=
  ⟨by decide, rfl⟩

/-- C9 (amended): for every state and nonempty peg p whose stack is strictly
decreasing bottom-to-top with u8-sized disks (in particular any peg of a state
satisfying the disk-partition invariant), `do_move` with source and
destination both p succeeds — returning `Win` when the state is solved and
`Continue` otherwise — and leaves every peg exactly as it was. -/
theorem c9_self_move_id (s : State) (p : Peg) (hne : s.get_tower p ≠ [])
    (hdec : Decreasing (s.get_tower p)) (hsz : ∀ d ∈ s.get_tower p, d.sz ≤ 255) :
    s.do_move { fromPeg := p, toPeg := p } =
      some (Except.ok (if s.done then NextStep.Win else NextStep.Continue), s) :=
  do_move_self hne hdec hsz

theorem c9_self_move_id_witness :
    (State.mk [Disk.mk 2, Disk.mk 1] [] []).do_move
        { fromPeg := Peg.Left, toPeg := Peg.Left } =
      some (Except.ok (if (State.mk [Disk.mk 2, Disk.mk 1] [] []).done
        then NextStep.Win else NextStep.Continue),
        State.mk [Disk.mk 2, Disk.mk 1] [] []) :=
  c9_self_move_id (State.mk [Disk.mk 2, Disk.mk 1] [] []) Peg.Left
    (by decide) (List.chain'_pair.mpr (by decide)) (by decide)

set_option maxRecDepth 4000 in
/-- C10: `State::new` cannot produce the 255-disk puzzle: the Rust range
`1..disks+1` computes `disks + 1` in `u8` arithmetic, and `255 + 1` overflows
(wrapping to `0 mod 2^8`), so under wrapping semantics the start peg comes out
empty (under checked arithmetic the addition would panic instead), while every
n ≤ 254 yields the genuine n-disk tower (C8). -/
theorem c10_new_255_overflow :
    (255 + 1) % 256 = 0 ∧
    (State.new 255).left = [] ∧
    State.new 255 ≠
      State.mk (((List.range' 1 255).map Disk.mk).reverse) [] [] ∧
    State.new 254 =
      State.mk (((List.range' 1 254).map Disk.mk).reverse) [] [] :=
  ⟨rfl, rfl, by decide, by decide⟩
